import Mathlib

/-!
Verification of the episode-numbering core of the `bulldozer` podcast
organizer (`src/classes/file_organizer.py`, with the RSS title provider of
`src/classes/rss.py` and the import surface of `src/classes/utils.py`).

Shallow embedding conventions:

* A filename is a `List Char` (`Name`); the directory listing handed to each
  stage is a `List Name` in filesystem-traversal order.  Renaming a file in
  place is modelled by transforming its name in that list.
* The configurable regular expressions are embedded at their documented
  defaults, the ones every claim is about:
  - episode marker: `(Ep\.?|Episode)\s*(\d+)` with `re.IGNORECASE`,
  - date: `\b(\d{4}-\d{2}-\d{2})\b`,
  - numbered episode: `^(.* - )(\d{4}-\d{2}-\d{2}) (\d+)\. (.*)(\.\w+)`.
  The embedded matchers reproduce Python `re` semantics on these concrete
  patterns (leftmost search position by position, alternative order
  `Ep\.?` before `Episode`, greedy `\.?`/`\s*`/`\d+`; backtracking of
  `\s*`/`\d+` can never turn a failure into a success for these patterns
  because a digit is required right after the spaces and nothing follows
  the digits, so the matcher is written in the equivalent deterministic
  greedy form).  Case-insensitivity is the two-case ASCII one, which is
  what `re.IGNORECASE` does on the ASCII letters of these patterns.
* Python `int(...)`/`str(...).zfill(w)` on the matched digit groups become
  `digitsToNat`/`natDigits`/`zfill` on `Nat` (both are arbitrary precision).
* The interactive/filesystem side effects (`rename`, `input`) are modelled
  by the names produced/prompted; the `IndexError` that
  `assign_episode_numbers_from_rss` can raise becomes an explicit
  error value.
-/

namespace Bulldozer

/-- A filename (or any Python string) as a list of characters. -/
abbrev Name := List Char

/-- Python's `\s` on ASCII: space, tab, newline, carriage return, vertical
tab, form feed. -/
def isPySpace (c : Char) : Bool :=
  c = ' ' || c = '\t' || c = '\n' || c = '\r' || c = '\x0b' || c = '\x0c'

/-- Python's `\w` on ASCII: letters, digits and underscore. -/
def isWordChar (c : Char) : Bool :=
  c.isAlpha || c.isDigit || c = '_'

/-! ### Decimal digits: `int(s)` and `str(n)` -/

/-- The decimal digit character for `n % 10`-style values. -/
def digitChar : Nat → Char
  | 0 => '0' | 1 => '1' | 2 => '2' | 3 => '3' | 4 => '4'
  | 5 => '5' | 6 => '6' | 7 => '7' | 8 => '8' | _ => '9'

/-- Numeric value of a decimal digit character. -/
def digitVal (c : Char) : Nat := c.toNat - 48

/-- Python `int(ds)` for a string of decimal digits. -/
def digitsToNat (ds : Name) : Nat :=
  ds.foldl (fun acc c => acc * 10 + digitVal c) 0

/-- Fuel-driven implementation of `str(n)`; `natDigits` supplies the fuel. -/
def natDigitsAux : Nat → Nat → Name
  | 0, _ => []
  | fuel + 1, n =>
    if n < 10 then [digitChar n]
    else natDigitsAux fuel (n / 10) ++ [digitChar (n % 10)]

/-- Python `str(n)` for a natural number: its decimal digit string. -/
def natDigits (n : Nat) : Name := natDigitsAux (n + 1) n

/-- Python `s.zfill(w)`: left-pad with `'0'` up to width `w` (a string of
digits never carries a sign here). -/
def zfill (w : Nat) (ds : Name) : Name :=
  List.replicate (w - ds.length) '0' ++ ds

/-! ### The episode-marker pattern `(Ep\.?|Episode)\s*(\d+)`, `re.IGNORECASE`

`file_organizer.py` lines 120, 155: the default `episode_pattern`. -/

/-- A matched episode marker: group 1 (`label`, original casing), the
whitespace matched by `\s*` (`sp`), and group 2 (`digits`). -/
structure Marker where
  label : Name
  sp : Name
  digits : Name
deriving DecidableEq

/-- The literal pattern `Ep` under `re.IGNORECASE`, as (lower, upper) pairs. -/
def epPat : List (Char × Char) := [('e', 'E'), ('p', 'P')]

/-- The literal pattern `Episode` under `re.IGNORECASE`. -/
def episodePat : List (Char × Char) :=
  [('e', 'E'), ('p', 'P'), ('i', 'I'), ('s', 'S'), ('o', 'O'), ('d', 'D'), ('e', 'E')]

/-- Match a case-insensitive literal at the head of `cs`; returns the
consumed characters (original casing) and the remainder. -/
def stripCIP : List (Char × Char) → Name → Option (Name × Name)
  | [], cs => some ([], cs)
  | _, [] => none
  | (lo, hi) :: ps, c :: cs =>
    if c = lo ∨ c = hi then
      (stripCIP ps cs).map (fun pr => (c :: pr.1, pr.2))
    else none

/-- After the label: `\s*(\d+)` — greedily take whitespace, then require at
least one digit (greedily taken). -/
def matchTail (lab rest : Name) : Option (Marker × Name) :=
  if (rest.dropWhile isPySpace).takeWhile Char.isDigit = [] then none
  else some (⟨lab, rest.takeWhile isPySpace, (rest.dropWhile isPySpace).takeWhile Char.isDigit⟩,
             (rest.dropWhile isPySpace).dropWhile Char.isDigit)

/-- The `Episode` alternative at the current position. -/
def matchAtEpisode (cs : Name) : Option (Marker × Name) :=
  match stripCIP episodePat cs with
  | none => none
  | some (lab, rest) => matchTail lab rest

/-- The literal pattern `.` (a regex `\.`, so case play is irrelevant). -/
def dotPat : List (Char × Char) := [('.', '.')]

/-- The `Ep\.?` alternative at the current position (greedy `\.?`: with the
dot first, then without, exactly as Python backtracks). -/
def matchAtEp (cs : Name) : Option (Marker × Name) :=
  match stripCIP epPat cs with
  | none => none
  | some (lab, rest) =>
    match stripCIP dotPat rest with
    | some (dot, r) =>
      match matchTail (lab ++ dot) r with
      | some x => some x
      | none => matchTail lab rest
    | none => matchTail lab rest

/-- Attempt the whole alternation `(Ep\.?|Episode)\s*(\d+)` at the current
position, alternatives in Python's order. -/
def matchAt (cs : Name) : Option (Marker × Name) :=
  match matchAtEp cs with
  | some x => some x
  | none => matchAtEpisode cs

/-- `pattern.search(name)`: try every position left to right; on the first
success return the text before the match, the marker, and the remainder. -/
def findMarker : Name → Option (Name × Marker × Name)
  | [] => none
  | c :: cs =>
    match matchAt (c :: cs) with
    | some (m, rest) => some ([], m, rest)
    | none => (findMarker cs).map (fun pr => (c :: pr.1, pr.2.1, pr.2.2))

/-- The replacement `f"{prefix} {padded_episode}"` of
`pad_episode_number` (`file_organizer.py` lines 137-141): the original label,
one space, and `str(int(digits)).zfill(w)`. -/
def renderMarker (w : Nat) (m : Marker) : Name :=
  m.label ++ ' ' :: zfill w (natDigits (digitsToNat m.digits))

/-- Fuel-driven `pattern.sub(pad_episode_number, name)`: replace every
non-overlapping marker occurrence left to right. -/
def subMarkersFuel (w : Nat) : Nat → Name → Name
  | 0, cs => cs
  | fuel + 1, cs =>
    match findMarker cs with
    | none => cs
    | some (pre, m, rest) => pre ++ renderMarker w m ++ subMarkersFuel w fuel rest

/-- `pattern.sub(pad_episode_number, name)` with fuel supplied. -/
def subMarkers (w : Nat) (cs : Name) : Name := subMarkersFuel w cs.length cs

/-- The `(filename, episode_number)` pairs scanned by `pad_episode_numbers`
(lines 122-128): every name whose first marker search succeeds, with
`int(match.group(2))`. -/
def extractPairs (names : List Name) : List (Name × Nat) :=
  names.filterMap (fun n => (findMarker n).map (fun pr => (n, digitsToNat pr.2.1.digits)))

/-- `max(ep_num for _, ep_num in files_with_episodes)` (0 when empty; the
function only uses it when nonempty, where this equals Python's `max`). -/
def maxExtracted (names : List Name) : Nat :=
  ((extractPairs names).map (fun pr => pr.2)).foldl Nat.max 0

/-- `num_digits = len(str(max_episode_number))` (line 135). -/
def padWidth (names : List Name) : Nat := (natDigits (maxExtracted names)).length

/-- `pad_episode_numbers` (`file_organizer.py` lines 116-148) over the
directory listing: if no name carries a marker, return unchanged; otherwise
rewrite each marker-carrying name with `pattern.sub`. -/
def pad_episode_numbers (names : List Name) : List Name :=
  if extractPairs names = [] then names
  else names.map (fun n => if (findMarker n).isSome then subMarkers (padWidth names) n else n)

/-- All marker occurrences of a name, in the order `pattern.sub` replaces
them (fuel-driven like `subMarkersFuel`). -/
def allMarkersFuel : Nat → Name → List Marker
  | 0, _ => []
  | fuel + 1, cs =>
    match findMarker cs with
    | none => []
    | some (_, m, rest) => m :: allMarkersFuel fuel rest

/-- All marker occurrences of a name. -/
def allMarkers (cs : Name) : List Marker := allMarkersFuel cs.length cs

/-! ### The date pattern `\b(\d{4}-\d{2}-\d{2})\b`

`file_organizer.py` line 154: the default `date_pattern`. -/

/-- Does `cs` start with `\d{4}-\d{2}-\d{2}` followed by a word boundary
(end of string or a non-word character)? -/
def dateShape : Name → Bool
  | a :: b :: c :: d :: '-' :: e :: f :: '-' :: g :: h :: rest =>
    a.isDigit && b.isDigit && c.isDigit && d.isDigit &&
    e.isDigit && f.isDigit && g.isDigit && h.isDigit &&
    (match rest with
     | [] => true
     | x :: _ => !isWordChar x)
  | _ => false

/-- `date_pattern.search(name)`: scan positions left to right carrying
whether the previous character is a word character (for the leading `\b`;
the first character of a date is a digit, so at position 0 the boundary
holds). Returns `match.group(1)`. -/
def dateSearchAux : Bool → Name → Option Name
  | _, [] => none
  | prevW, c :: cs =>
    if !prevW && dateShape (c :: cs) then some ((c :: cs).take 10)
    else dateSearchAux (isWordChar c) cs

/-- First `\b(\d{4}-\d{2}-\d{2})\b` match in a name, if any. -/
def dateSearch (cs : Name) : Option Name := dateSearchAux false cs

/-- Insert a file into its date's group of the insertion-ordered dict
`files_by_date` (`file_organizer.py` lines 157-167). -/
def insertGroup (d : Name) (f : Name) : List (Name × List Name) → List (Name × List Name)
  | [] => [(d, [f])]
  | (d2, fs) :: rest =>
    if d2 = d then (d2, fs ++ [f]) :: rest
    else (d2, fs) :: insertGroup d f rest

/-- The `files_by_date` dict: keys in first-occurrence order, each group in
traversal order; files without a date match are dropped. -/
def files_by_date (names : List Name) : List (Name × List Name) :=
  names.foldl
    (fun acc n =>
      match dateSearch n with
      | some d => insertGroup d n acc
      | none => acc)
    []

/-- `find_files_without_episode_numbers` (`file_organizer.py` lines
150-181): per date group, keep the files with no episode-marker match; drop
groups that become empty. -/
def find_files_without_episode_numbers (names : List Name) : List (Name × List Name) :=
  (files_by_date names).filterMap
    (fun pr =>
      let ms := pr.2.filter (fun f => !(findMarker f).isSome)
      if ms = [] then none else some (pr.1, ms))

/-! ### `assign_episode_numbers_from_rss` (`file_organizer.py` lines 183-210) -/

/-- Python's substring test `sep in cs`. -/
def containsSeq (sep : Name) : Name → Bool
  | [] => sep.isPrefixOf []
  | c :: cs => sep.isPrefixOf (c :: cs) || containsSeq sep cs

/-- Python `s.strip()` restricted to ASCII whitespace. -/
def pyStrip (cs : Name) : Name :=
  ((cs.dropWhile isPySpace).reverse.dropWhile isPySpace).reverse

/-- Fuel-driven `re.sub(rf'\b{date}\b ', '', name)`: remove every
occurrence of `date ++ " "` that sits at a word boundary. The flag carries
whether the previous character is a word character. A date from
`date_pattern` starts and ends with a digit, so the leading `\b` holds iff
the previous character is not a word character (at position 0 it holds) and
the trailing `\b` always holds before the literal space. -/
def removeDateFuel (date : Name) : Nat → Bool → Name → Name
  | 0, _, cs => cs
  | fuel + 1, prevW, cs =>
    match cs with
    | [] => []
    | c :: cs2 =>
      if !prevW && (date ++ [' ']).isPrefixOf (c :: cs2) then
        removeDateFuel date fuel false (List.drop (date.length + 1) (c :: cs2))
      else c :: removeDateFuel date fuel (isWordChar c) cs2

/-- `re.sub(rf'\b{date}\b ', '', name)` with fuel supplied. -/
def removeDateOcc (date file : Name) : Name := removeDateFuel date file.length false file

/-- Prepend a character to the first piece of a split result. -/
def consHead (c : Char) : List Name → List Name
  | [] => [[c]]
  | g :: gs => (c :: g) :: gs

/-- Fuel-driven Python `s.split(sep)` for a nonempty separator: split at
each non-overlapping occurrence, left to right. -/
def splitFuel (sep : Name) : Nat → Name → List Name
  | 0, _ => [[]]
  | fuel + 1, cs =>
    match cs with
    | [] => [[]]
    | c :: cs2 =>
      if sep.isPrefixOf (c :: cs2) then
        [] :: splitFuel sep fuel (List.drop sep.length (c :: cs2))
      else consHead c (splitFuel sep fuel cs2)

/-- Python `s.split(sep)` with fuel supplied. -/
def splitOnSep (sep cs : Name) : List Name := splitFuel sep cs.length cs

/-- The separator `" - "` used by `original_title.split(' - ')` (line 203). -/
def sepDash : Name := [' ', '-', ' ']

/-- What happens to one file of a date group inside the inner loop of
`assign_episode_numbers_from_rss`. -/
inductive FileOutcome where
  /-- No title matched: the loop falls through, the file keeps its name. -/
  | unchanged : FileOutcome
  /-- A title matched and the rename succeeded with this new name. -/
  | renamed : Name → FileOutcome
  /-- A title matched but `title_parts[1]` raised `IndexError` (line 205). -/
  | indexError : FileOutcome
deriving DecidableEq

/-- Render `'{prefix} - {date} Ep. {episode} - {suffix}'` — the default
`conflicing_dates_replacement` template (line 189). -/
def renderTemplate (p0 date padded p1 : Name) : Name :=
  p0 ++ sepDash ++ date ++ (' ' :: 'E' :: 'p' :: '.' :: ' ' :: []) ++ padded ++ sepDash ++ p1

/-- The body executed on the first matching title (lines 200-210): pad the
ordinal, strip the date occurrence, split on `" - "`, and render the
template with `title_parts[0]` and `title_parts[1]`. -/
def renameHit (titles : List Name) (date file : Name) (k : Nat) : FileOutcome :=
  let w := (natDigits titles.length).length
  let ot := pyStrip (removeDateOcc date file)
  match splitOnSep sepDash ot with
  | p0 :: p1 :: _ => .renamed (renderTemplate p0 date (zfill w (natDigits k)) p1)
  | _ => .indexError

/-- The inner loop `for episode_number, title in enumerate(episode_titles,
start=1)` with its `break`: scan the chronological titles, act on the first
whose normalized form is contained in the normalized filename. -/
def assignFileGo (normalize : Name → Name) (titles : List Name) (date file : Name) :
    List Name → Nat → FileOutcome
  | [], _ => .unchanged
  | t :: ts, k =>
    if containsSeq (normalize t) (normalize file) then renameHit titles date file k
    else assignFileGo normalize titles date file ts (k + 1)

/-- Per-file behaviour of `assign_episode_numbers_from_rss` for a file of a
date group, given the chronological title sequence. -/
def assignFile (normalize : Name → Name) (titles : List Name) (date file : Name) : FileOutcome :=
  assignFileGo normalize titles date file titles 1

/-- Process the files of one date group in order, collecting the renames
`(old, new)`; an `IndexError` aborts the whole stage. -/
def assignGroupFiles (normalize : Name → Name) (titles : List Name) (date : Name) :
    List Name → Except Unit (List (Name × Name))
  | [] => .ok []
  | f :: fs =>
    match assignFile normalize titles date f with
    | .indexError => .error ()
    | .unchanged => assignGroupFiles normalize titles date fs
    | .renamed n =>
      match assignGroupFiles normalize titles date fs with
      | .error e => .error e
      | .ok l => .ok ((f, n) :: l)

/-- Process the date groups in order. -/
def assignGroups (normalize : Name → Name) (titles : List Name) :
    List (Name × List Name) → Except Unit (List (Name × Name))
  | [] => .ok []
  | (date, fs) :: gs =>
    match assignGroupFiles normalize titles date fs with
    | .error e => .error e
    | .ok l =>
      match assignGroups normalize titles gs with
      | .error e => .error e
      | .ok l2 => .ok (l ++ l2)

/-- `assign_episode_numbers_from_rss` (lines 183-210): reverse the feed
titles to chronological order, then walk every date group. Returns the
performed renames, or an error if some file raised `IndexError`. -/
def assign_episode_numbers_from_rss (normalize : Name → Name) (feedTitles : List Name)
    (groups : List (Name × List Name)) : Except Unit (List (Name × Name)) :=
  assignGroups normalize feedTitles.reverse groups

/-- Modelled from the spec: `normalize_string` is imported from
`src/classes/utils.py` by the file organizer but defined nowhere in the
source; spec §3 and the glossary describe it as case-folding with
punctuation/whitespace stripping, a pure function of its input. The
stage-level theorems are generic in the normalization function; this model
only instantiates their witnesses. -/
def normalize_string (cs : Name) : Name :=
  (cs.filter (fun c => c.isAlpha || c.isDigit)).map Char.toLower

/-- The 1-based position of the first title of the chronological sequence
whose normalized form is a substring of the normalized filename — the
ordinal the specification says stage 4.3 assigns. -/
def firstTitleHit (normalize : Name → Name) (titles : List Name) (file : Name) : Option Nat :=
  (titles.findIdx? (fun t => containsSeq (normalize t) (normalize file))).map (fun i => i + 1)

/-! ### `check_numbering` (`file_organizer.py` lines 212-252)

The final manual pass re-scans with the default `numbered_episode_pattern`
`^(.* - )(\d{4}-\d{2}-\d{2}) (\d+)\. (.*)(\.\w+)`. In the source, `files`
is the generator `Path(...).rglob('*')`: `any(...)` consumes it up to and
including the first matching element, and the subsequent list comprehension
iterates only over what is left of the same generator. -/

/-- Is there a `.` followed by a word character (the `(.*)(\.\w+)` tail),
with `.*` unable to cross a newline? -/
def hasDotWord : Name → Bool
  | [] => false
  | '\n' :: _ => false
  | '.' :: c :: cs => isWordChar c || hasDotWord (c :: cs)
  | _ :: cs => hasDotWord cs

/-- After a `" - "`: `(\d{4}-\d{2}-\d{2}) (\d+)\. ` then the dot-word tail. -/
def numberedTail : Name → Bool
  | a :: b :: c :: d :: '-' :: e :: f :: '-' :: g :: h :: ' ' :: rest =>
    a.isDigit && b.isDigit && c.isDigit && d.isDigit &&
    e.isDigit && f.isDigit && g.isDigit && h.isDigit &&
    (let ds := rest.takeWhile Char.isDigit
     let r2 := rest.dropWhile Char.isDigit
     !(ds = []) &&
     (match r2 with
      | '.' :: ' ' :: r3 => hasDotWord r3
      | _ => false))
  | _ => false

/-- Scan for a `" - "` whose tail completes the numbered pattern; `(.* - )`
means the prefix before it may be anything without a newline, so the scan
stops at a newline. -/
def matchesNumberedAux : Name → Bool
  | ' ' :: '-' :: ' ' :: rest =>
    numberedTail rest || matchesNumberedAux ('-' :: ' ' :: rest)
  | '\n' :: _ => false
  | _ :: cs => matchesNumberedAux cs
  | [] => false

/-- `numbered_episode_pattern.match(name)` as a Boolean: does the name match
`^(.* - )(\d{4}-\d{2}-\d{2}) (\d+)\. (.*)(\.\w+)`? -/
def matchesNumbered (cs : Name) : Bool := matchesNumberedAux cs

/-- `fnmatch.fnmatch(name, '*.mp3')` on a POSIX filesystem. -/
def isMp3 (cs : Name) : Bool := (['.', 'm', 'p', '3'] : Name).isSuffixOf cs

/-- `fnmatch.fnmatch(name, '*.m4a')` on a POSIX filesystem. -/
def isM4a (cs : Name) : Bool := (['.', 'm', '4', 'a'] : Name).isSuffixOf cs

/-- `any(pattern.match(f.name) for f in files)` over the generator: returns
the truth value and what is left of the generator afterwards. -/
def consumeAny (p : Name → Bool) : List Name → Bool × List Name
  | [] => (false, [])
  | f :: fs => if p f then (true, fs) else consumeAny p fs

/-- The files the manual pass of `check_numbering` (lines 223-234) prompts
an episode number for: only elements left in the half-consumed generator
that do not match the numbered pattern and are audio files. -/
def check_numbering_prompts (files : List Name) : List Name :=
  match consumeAny matchesNumbered files with
  | (true, rest) => rest.filter (fun f => !matchesNumbered f && (isMp3 f || isM4a f))
  | (false, _) => []

/-! ### The import surface of `utils.py` (for the `normalize_string` import)

`file_organizer.py` line 6-7 runs `from .utils import spinner,
titlecase_filename, announce, log` and `from .utils import
format_last_date, ask_yes_no, take_input, normalize_string`. A
`from`-import fails with `ImportError` iff the requested name is not an
attribute of the module; the attributes of `utils.py` at import time are
its top-level imports and its top-level `def`s. -/

/-- The names `utils.py` binds at top level by importing. -/
def utilsImportedNames : List String :=
  ["subprocess", "logging", "yaml", "re", "shutil", "fnmatch", "datetime",
   "contextmanager", "Path", "yaspin", "titlecase", "RotatingFileHandler", "Cache"]

/-- The top-level `def`s of `utils.py` (lines 16-325). -/
def utilsTopLevelDefs : List String :=
  ["run_command", "spinner", "load_config", "setup_logging", "log", "announce",
   "ask_yes_no", "take_input", "get_metadata_directory", "get_metadata_directory_name",
   "special_capitalization", "titlecase_filename", "open_file_case_insensitive",
   "archive_metadata", "format_last_date", "find_case_insensitive_files",
   "get_from_cache", "write_to_cache"]

/-- Every attribute the module object `utils` carries at import time. -/
def utilsModuleAttrs : List String := utilsImportedNames ++ utilsTopLevelDefs

/-- The names `file_organizer.py` lines 6-7 request from `.utils`. -/
def fileOrganizerUtilsNames : List String :=
  ["spinner", "titlecase_filename", "announce", "log",
   "format_last_date", "ask_yes_no", "take_input", "normalize_string"]

/-- Python `from .utils import n1, ..., nk` raises `ImportError` iff some
requested name is not a module attribute. -/
def fileOrganizerImportFails : Bool :=
  fileOrganizerUtilsNames.any (fun n => !utilsModuleAttrs.contains n)

/-! ### Verification-side definitions (shapes, relations, bookkeeping) -/

/-- The head of a list (if any) falsifies `p`. -/
def HeadNot (p : Char → Bool) : Name → Prop
  | [] => True
  | c :: _ => p c = false

/-- The shapes group 1 of `(Ep\.?|Episode)` can take (original casing). -/
inductive LabelShape : Name → Prop
  | ep (e p : Char) : (e = 'e' ∨ e = 'E') → (p = 'p' ∨ p = 'P') → LabelShape [e, p]
  | epdot (e p : Char) : (e = 'e' ∨ e = 'E') → (p = 'p' ∨ p = 'P') → LabelShape [e, p, '.']
  | episode (c1 c2 c3 c4 c5 c6 c7 : Char) :
      (c1 = 'e' ∨ c1 = 'E') → (c2 = 'p' ∨ c2 = 'P') → (c3 = 'i' ∨ c3 = 'I') →
      (c4 = 's' ∨ c4 = 'S') → (c5 = 'o' ∨ c5 = 'O') → (c6 = 'd' ∨ c6 = 'D') →
      (c7 = 'e' ∨ c7 = 'E') → LabelShape [c1, c2, c3, c4, c5, c6, c7]

/-- The well-formedness every produced marker enjoys. -/
def MarkerShape (m : Marker) : Prop :=
  LabelShape m.label ∧ (∀ c ∈ m.sp, isPySpace c = true) ∧
  (∀ c ∈ m.digits, c.isDigit = true) ∧ m.digits ≠ []

/-- The text a marker matched: `match.group(0)`. -/
def markerText (m : Marker) : Name := m.label ++ m.sp ++ m.digits

/-- Somewhere-at-position-0 match witness: the pattern `(Ep\.?|Episode)\s*\d`
succeeds at the head of `cs` iff such a decomposition exists (the trailing
digits may run on; one digit is enough to witness). -/
def HasMarkerPos (cs : Name) : Prop :=
  ∃ L sp d t, cs = L ++ (sp ++ d :: t) ∧ LabelShape L ∧
    (∀ c ∈ sp, isPySpace c = true) ∧ d.isDigit = true

/-- No match of the marker pattern starts inside `pre` when `tail` follows. -/
def NoMatchBefore (pre tail : Name) : Prop :=
  ∀ a c b, pre = a ++ c :: b → matchAt (c :: (b ++ tail)) = none

/-- The marker that replaces `m` after padding to width `w`. -/
def paddedMarker (w : Nat) (m : Marker) : Marker :=
  ⟨m.label, [' '], zfill w (natDigits (digitsToNat m.digits))⟩

/-- The transformation `pad_episode_numbers` applies to one name. -/
def padFile (w : Nat) (n : Name) : Name :=
  if (findMarker n).isSome then subMarkers w n else n

/-- The per-file conclusion of the amended C4: the file's first marker in
the output sits at the same position with the same label, its numeric part
has exactly the target width, and its numeric value is unchanged. -/
def FirstMarkerPadded (wTarget : Nat) (n out : Name) : Prop :=
  ∀ pre m rest, findMarker n = some (pre, m, rest) →
    ∃ ds2 t2, findMarker out = some (pre, ⟨m.label, [' '], ds2⟩, t2) ∧
      ds2.length = wTarget ∧ digitsToNat ds2 = digitsToNat m.digits

/-- Specification relation for one `pattern.sub` pass at width `w`: the
output is the input with every marker occurrence (label, spacing, digits)
replaced by the same label, exactly one space, and the number zero-padded
to width `w`; all other characters are untouched. -/
inductive MarkersPadded (w : Nat) : Name → Name → Prop
  | clean (cs : Name) : findMarker cs = none → MarkersPadded w cs cs
  | seg (pre : Name) (m : Marker) (rest out : Name) :
      findMarker (pre ++ (markerText m ++ rest)) = some (pre, m, rest) →
      MarkersPadded w rest out →
      MarkersPadded w (pre ++ (markerText m ++ rest))
        (pre ++ ((m.label ++ ' ' :: zfill w (natDigits (digitsToNat m.digits))) ++ out))

/-- Association-list lookup for the ordered dict `files_by_date`. -/
def lookupGroup (d : Name) : List (Name × List Name) → Option (List Name)
  | [] => none
  | (d2, fs) :: rest => if d2 = d then some fs else lookupGroup d rest

/-- How one fold step extends the group stored under a key. -/
def optAppend : Option (List Name) → List Name → Option (List Name)
  | none, [] => none
  | none, l => some l
  | some fs, l => some (fs ++ l)

/-- One step of the `files_by_date` fold. -/
def groupStep (acc : List (Name × List Name)) (n : Name) : List (Name × List Name) :=
  match dateSearch n with
  | some d => insertGroup d n acc
  | none => acc

/-- Keys of the groups list. -/
def groupKeys (acc : List (Name × List Name)) : List Name := acc.map Prod.fst

/-! ## Character-class facts -/

theorem isPySpace_cases {c : Char} (h : isPySpace c = true) :
    c = ' ' ∨ c = '\t' ∨ c = '\n' ∨ c = '\r' ∨ c = '\x0b' ∨ c = '\x0c' := by
  simp [isPySpace] at h
  tauto

theorem isDigit_isPySpace_false {c : Char} (h : c.isDigit = true) : isPySpace c = false := by
  cases h2 : isPySpace c with
  | false => rfl
  | true =>
    rcases isPySpace_cases h2 with h3 | h3 | h3 | h3 | h3 | h3 <;> subst h3 <;> simp_all

theorem isDigit_ne_dot {c : Char} (h : c.isDigit = true) : c ≠ '.' := by
  intro h2; subst h2; simp_all

theorem isPySpace_ne_dot {c : Char} (h : isPySpace c = true) : c ≠ '.' := by
  intro h2; subst h2; simp_all [isPySpace]

/-! ## Decimal digit-string lemmas -/

theorem digitChar_isDigit (n : Nat) : (digitChar n).isDigit = true := by
  unfold digitChar; split <;> decide

theorem digitVal_digitChar {n : Nat} (h : n < 10) : digitVal (digitChar n) = n := by
  interval_cases n <;> decide

theorem natDigitsAux_of_lt :
    ∀ (n f : Nat), n < f → natDigitsAux f n = natDigits n := by
  intro n
  induction n using Nat.strong_induction_on with
  | _ n IH =>
    intro f hf
    match f, hf with
    | f + 1, hf =>
      by_cases h10 : n < 10
      · simp [natDigitsAux, natDigits, h10]
      · have hn0 : 0 < n := by omega
        have hdiv : n / 10 < n := Nat.div_lt_self hn0 (by omega)
        have h1 : natDigitsAux f (n / 10) = natDigits (n / 10) := IH _ hdiv _ (by omega)
        have h2 : natDigitsAux n (n / 10) = natDigits (n / 10) := IH _ hdiv _ (by omega)
        simp only [natDigitsAux, natDigits, h10, if_false, h1, h2]

theorem natDigits_unfold (n : Nat) :
    natDigits n = if n < 10 then [digitChar n] else natDigits (n / 10) ++ [digitChar (n % 10)] := by
  by_cases h10 : n < 10
  · simp [natDigits, natDigitsAux, h10]
  · have hn0 : 0 < n := by omega
    have hdiv : n / 10 < n := Nat.div_lt_self hn0 (by omega)
    have h2 : natDigitsAux n (n / 10) = natDigits (n / 10) := natDigitsAux_of_lt _ _ (by omega)
    simp only [natDigits, natDigitsAux, h10, if_false, h2]

theorem natDigits_ne_nil (n : Nat) : natDigits n ≠ [] := by
  rw [natDigits_unfold]
  split <;> simp

theorem natDigits_all_digit :
    ∀ (n : Nat), ∀ c ∈ natDigits n, c.isDigit = true := by
  intro n
  induction n using Nat.strong_induction_on with
  | _ n IH =>
    rw [natDigits_unfold]
    by_cases h10 : n < 10
    · simp only [h10, if_true, List.mem_singleton]
      intro c hc; subst hc; exact digitChar_isDigit n
    · have hn0 : 0 < n := by omega
      have hdiv : n / 10 < n := Nat.div_lt_self hn0 (by omega)
      simp only [h10, if_false, List.mem_append, List.mem_singleton]
      intro c hc
      rcases hc with hc | hc
      · exact IH _ hdiv c hc
      · subst hc; exact digitChar_isDigit _

theorem digitsToNat_nil : digitsToNat [] = 0 := rfl

theorem digitsToNat_append_singleton (xs : Name) (c : Char) :
    digitsToNat (xs ++ [c]) = 10 * digitsToNat xs + digitVal c := by
  unfold digitsToNat
  rw [List.foldl_append]
  simp [Nat.mul_comm]

theorem digitsToNat_natDigits : ∀ (n : Nat), digitsToNat (natDigits n) = n := by
  intro n
  induction n using Nat.strong_induction_on with
  | _ n IH =>
    rw [natDigits_unfold]
    by_cases h10 : n < 10
    · simp only [h10, if_true]
      simp [digitsToNat, digitVal_digitChar h10]
    · have hn0 : 0 < n := by omega
      have hdiv : n / 10 < n := Nat.div_lt_self hn0 (by omega)
      simp only [h10, if_false]
      rw [digitsToNat_append_singleton, IH _ hdiv, digitVal_digitChar (Nat.mod_lt _ (by omega))]
      omega

theorem foldl_digits_replicate_zero (k : Nat) :
    List.foldl (fun acc c => acc * 10 + digitVal c) 0 (List.replicate k '0') = 0 := by
  induction k with
  | zero => rfl
  | succ k ih => simpa [List.replicate_succ, digitVal] using ih

theorem digitsToNat_zfill (w : Nat) (ds : Name) : digitsToNat (zfill w ds) = digitsToNat ds := by
  unfold zfill digitsToNat
  rw [List.foldl_append, foldl_digits_replicate_zero]

theorem zfill_ne_nil {w : Nat} {ds : Name} (h : ds ≠ []) : zfill w ds ≠ [] := by
  unfold zfill
  intro h2
  rcases List.append_eq_nil.mp h2 with ⟨-, h4⟩
  exact h h4

theorem zfill_all_digit {w : Nat} {ds : Name} (h : ∀ c ∈ ds, c.isDigit = true) :
    ∀ c ∈ zfill w ds, c.isDigit = true := by
  unfold zfill
  intro c hc
  rcases List.mem_append.mp hc with hc | hc
  · have := List.eq_of_mem_replicate hc
    subst this; decide
  · exact h c hc

theorem zfill_length_of_le {w : Nat} {ds : Name} (h : ds.length ≤ w) :
    (zfill w ds).length = w := by
  unfold zfill
  simp [List.length_replicate]
  omega

theorem zfill_of_le {w : Nat} {ds : Name} (h : w ≤ ds.length) : zfill w ds = ds := by
  unfold zfill
  have : w - ds.length = 0 := by omega
  simp [this]

theorem natDigits_length_mono : ∀ (m M : Nat), m ≤ M →
    (natDigits m).length ≤ (natDigits M).length := by
  intro m M
  induction M using Nat.strong_induction_on generalizing m with
  | _ M IH =>
    intro hle
    by_cases hM : M < 10
    · have hm : m < 10 := by omega
      rw [natDigits_unfold m, natDigits_unfold M]
      simp [hm, hM]
    · by_cases hm : m < 10
      · rw [natDigits_unfold m, natDigits_unfold M]
        simp only [hm, hM, if_true, if_false, List.length_singleton, List.length_append]
        have := List.length_pos.mpr (natDigits_ne_nil (M / 10))
        omega
      · rw [natDigits_unfold m, natDigits_unfold M]
        simp only [hm, hM, if_false, List.length_append, List.length_singleton]
        have hMdiv : M / 10 < M := Nat.div_lt_self (by omega) (by omega)
        have : (natDigits (m / 10)).length ≤ (natDigits (M / 10)).length :=
          IH _ hMdiv _ (Nat.div_le_div_right hle)
        omega

/-! ## takeWhile / dropWhile helpers -/

theorem headNot_nil {p : Char → Bool} : HeadNot p [] := trivial

theorem mem_takeWhile_pred {p : Char → Bool} :
    ∀ {l : Name} {c : Char}, c ∈ l.takeWhile p → p c = true := by
  intro l
  induction l with
  | nil => intro c hc; simp [List.takeWhile] at hc
  | cons a l ih =>
    intro c hc
    rw [List.takeWhile_cons] at hc
    by_cases ha : p a
    · rw [if_pos ha] at hc
      rcases List.mem_cons.mp hc with hc | hc
      · subst hc; exact ha
      · exact ih hc
    · rw [if_neg ha] at hc
      simp at hc

theorem dropWhile_headNot {p : Char → Bool} :
    ∀ (l : Name), HeadNot p (l.dropWhile p) := by
  intro l
  induction l with
  | nil => trivial
  | cons a l ih =>
    rw [List.dropWhile_cons]
    by_cases ha : p a
    · rw [if_pos ha]; exact ih
    · rw [if_neg ha]; exact eq_false_of_ne_true ha

theorem takeWhile_append_all {p : Char → Bool} :
    ∀ (xs ys : Name), (∀ c ∈ xs, p c = true) → HeadNot p ys →
      (xs ++ ys).takeWhile p = xs ∧ (xs ++ ys).dropWhile p = ys := by
  intro xs
  induction xs with
  | nil =>
    intro ys _ hys
    cases ys with
    | nil => simp
    | cons c cs =>
      simp only [List.nil_append, List.takeWhile_cons, List.dropWhile_cons]
      unfold HeadNot at hys
      rw [hys]
      simp
  | cons x xs ih =>
    intro ys hall hys
    have hx : p x = true := hall x (by simp)
    have := ih ys (fun c hc => hall c (by simp [hc])) hys
    simp only [List.cons_append, List.takeWhile_cons, List.dropWhile_cons, hx, if_true]
    simp [this.1, this.2]

/-! ## Label shapes of the marker pattern -/

theorem twoCase_not_digit {c x y : Char} (h : c = x ∨ c = y)
    (hx : x.isDigit = false) (hy : y.isDigit = false) : c.isDigit = false := by
  rcases h with h | h <;> subst h <;> assumption

theorem twoCase_not_space {c x y : Char} (h : c = x ∨ c = y)
    (hx : isPySpace x = false) (hy : isPySpace y = false) : isPySpace c = false := by
  rcases h with h | h <;> subst h <;> assumption

theorem labelShape_chars {L : Name} (h : LabelShape L) :
    ∀ c ∈ L, c.isDigit = false ∧ isPySpace c = false := by
  cases h with
  | ep e p he hp =>
    intro c hc
    rcases List.mem_cons.mp hc with hc | hc
    · subst hc
      exact ⟨twoCase_not_digit he (by decide) (by decide), twoCase_not_space he (by decide) (by decide)⟩
    rcases List.mem_cons.mp hc with hc | hc
    · subst hc
      exact ⟨twoCase_not_digit hp (by decide) (by decide), twoCase_not_space hp (by decide) (by decide)⟩
    · simp at hc
  | epdot e p he hp =>
    intro c hc
    rcases List.mem_cons.mp hc with hc | hc
    · subst hc
      exact ⟨twoCase_not_digit he (by decide) (by decide), twoCase_not_space he (by decide) (by decide)⟩
    rcases List.mem_cons.mp hc with hc | hc
    · subst hc
      exact ⟨twoCase_not_digit hp (by decide) (by decide), twoCase_not_space hp (by decide) (by decide)⟩
    rcases List.mem_cons.mp hc with hc | hc
    · subst hc; exact ⟨by decide, by decide⟩
    · simp at hc
  | episode c1 c2 c3 c4 c5 c6 c7 h1 h2 h3 h4 h5 h6 h7 =>
    intro c hc
    simp only [List.mem_cons, List.not_mem_nil, or_false] at hc
    rcases hc with hc | hc | hc | hc | hc | hc | hc <;> subst hc
    · exact ⟨twoCase_not_digit h1 (by decide) (by decide), twoCase_not_space h1 (by decide) (by decide)⟩
    · exact ⟨twoCase_not_digit h2 (by decide) (by decide), twoCase_not_space h2 (by decide) (by decide)⟩
    · exact ⟨twoCase_not_digit h3 (by decide) (by decide), twoCase_not_space h3 (by decide) (by decide)⟩
    · exact ⟨twoCase_not_digit h4 (by decide) (by decide), twoCase_not_space h4 (by decide) (by decide)⟩
    · exact ⟨twoCase_not_digit h5 (by decide) (by decide), twoCase_not_space h5 (by decide) (by decide)⟩
    · exact ⟨twoCase_not_digit h6 (by decide) (by decide), twoCase_not_space h6 (by decide) (by decide)⟩
    · exact ⟨twoCase_not_digit h7 (by decide) (by decide), twoCase_not_space h7 (by decide) (by decide)⟩

theorem labelShape_head {L : Name} (h : LabelShape L) :
    ∃ c L2, L = c :: L2 ∧ (c = 'e' ∨ c = 'E') := by
  cases h with
  | ep e p he hp => exact ⟨e, _, rfl, he⟩
  | epdot e p he hp => exact ⟨e, _, rfl, he⟩
  | episode c1 c2 c3 c4 c5 c6 c7 h1 h2 h3 h4 h5 h6 h7 => exact ⟨c1, _, rfl, h1⟩

theorem labelShape_ne_nil {L : Name} (h : LabelShape L) : L ≠ [] := by
  cases h <;> simp

theorem labelShape_length {L : Name} (h : LabelShape L) :
    L.length = 2 ∨ L.length = 3 ∨ L.length = 7 := by
  cases h <;> simp

/-- A label shape is never a proper suffix of another label shape. -/
theorem labelShape_not_proper_suffix {L L0 u : Name}
    (hL : LabelShape L) (hL0 : LabelShape L0) (hu : u ≠ []) (heq : L = u ++ L0) : False := by
  have hlen : L.length = u.length + L0.length := by
    subst heq; simp
  have hu1 : 1 ≤ u.length := List.length_pos.mpr hu
  have hL0len := labelShape_length hL0
  have hdrop : L0 = List.drop u.length L := by
    rw [heq, List.drop_left]
  cases hL with
  | ep e p he hp =>
    have : L0.length ≤ 1 := by simp at hlen; omega
    omega
  | epdot e p he hp =>
    have h02 : L0.length = 2 := by simp at hlen; omega
    have hu2 : u.length = 1 := by simp at hlen; omega
    rw [hu2] at hdrop
    simp only [List.drop] at hdrop
    rw [hdrop] at hL0
    cases hL0 with
    | ep e2 p2 he2 hp2 =>
      rcases hp with hp | hp <;> rcases he2 with h | h <;> simp_all
  | episode c1 c2 c3 c4 c5 c6 c7 h1 h2 h3 h4 h5 h6 h7 =>
    rcases hL0len with h0 | h0 | h0
    · have hu5 : u.length = 5 := by simp at hlen; omega
      rw [hu5] at hdrop
      simp only [List.drop] at hdrop
      rw [hdrop] at hL0
      cases hL0 with
      | ep e2 p2 he2 hp2 =>
        rcases h6 with h | h <;> rcases he2 with h2 | h2 <;> simp_all
    · have hu4 : u.length = 4 := by simp at hlen; omega
      rw [hu4] at hdrop
      simp only [List.drop] at hdrop
      rw [hdrop] at hL0
      cases hL0 with
      | epdot e2 p2 he2 hp2 =>
        rcases h7 with h | h <;> simp_all
    · simp at hlen; omega

/-! ## stripCIP lemmas -/

theorem stripCIP_some_decomp :
    ∀ (P : List (Char × Char)) (cs lab rest : Name),
      stripCIP P cs = some (lab, rest) →
      cs = lab ++ rest ∧ List.Forall₂ (fun pr c => c = pr.1 ∨ c = pr.2) P lab := by
  intro P
  induction P with
  | nil =>
    intro cs lab rest h
    unfold stripCIP at h
    simp only [Option.some.injEq, Prod.mk.injEq] at h
    obtain ⟨h1, h2⟩ := h
    subst h1; subst h2
    exact ⟨rfl, List.Forall₂.nil⟩
  | cons pr ps ih =>
    intro cs lab rest h
    cases cs with
    | nil => simp [stripCIP] at h
    | cons c cs2 =>
      obtain ⟨lo, hi⟩ := pr
      unfold stripCIP at h
      by_cases hc : c = lo ∨ c = hi
      · rw [if_pos hc] at h
        cases h2 : stripCIP ps cs2 with
        | none => rw [h2] at h; simp at h
        | some pr2 =>
          obtain ⟨lab2, rest2⟩ := pr2
          rw [h2] at h
          simp only [Option.map_some', Option.some.injEq, Prod.mk.injEq] at h
          obtain ⟨hlab, hrest⟩ := h
          obtain ⟨hcs, hfa⟩ := ih cs2 lab2 rest2 h2
          subst hlab
          subst hrest
          subst hcs
          exact ⟨rfl, List.Forall₂.cons hc hfa⟩
      · rw [if_neg hc] at h
        simp at h

theorem stripCIP_append :
    ∀ {P : List (Char × Char)} {lab : Name},
      List.Forall₂ (fun pr c => c = pr.1 ∨ c = pr.2) P lab →
      ∀ (rest : Name), stripCIP P (lab ++ rest) = some (lab, rest) := by
  intro P lab h
  induction h with
  | nil => intro rest; simp [stripCIP]
  | @cons pr c ps lab2 hpr hfa ih =>
    intro rest
    obtain ⟨lo, hi⟩ := pr
    simp only [List.cons_append]
    unfold stripCIP
    rw [if_pos hpr, ih rest]
    rfl

/-! ## matchTail lemmas -/

theorem matchTail_some {lab rest : Name} {m : Marker} {r3 : Name}
    (h : matchTail lab rest = some (m, r3)) :
    m.label = lab ∧ rest = m.sp ++ m.digits ++ r3 ∧
    (∀ c ∈ m.sp, isPySpace c = true) ∧ (∀ c ∈ m.digits, c.isDigit = true) ∧
    m.digits ≠ [] ∧ HeadNot Char.isDigit r3 := by
  unfold matchTail at h
  by_cases hds : (rest.dropWhile isPySpace).takeWhile Char.isDigit = []
  · rw [if_pos hds] at h; simp at h
  · rw [if_neg hds] at h
    simp only [Option.some.injEq, Prod.mk.injEq] at h
    obtain ⟨hm, hr3⟩ := h
    subst hm
    refine ⟨rfl, ?_, ?_, ?_, hds, ?_⟩
    · show rest = rest.takeWhile isPySpace ++ _ ++ r3
      rw [List.append_assoc, ← hr3]
      rw [List.takeWhile_append_dropWhile, List.takeWhile_append_dropWhile]
    · exact fun c hc => mem_takeWhile_pred hc
    · exact fun c hc => mem_takeWhile_pred hc
    · rw [← hr3]; exact dropWhile_headNot _

theorem headNot_space_of_digits {ds T : Name} (hds : ∀ c ∈ ds, c.isDigit = true)
    (hne : ds ≠ []) : HeadNot isPySpace (ds ++ T) := by
  cases ds with
  | nil => exact absurd rfl hne
  | cons d ds2 =>
    show isPySpace d = false
    exact isDigit_isPySpace_false (hds d (by simp))

theorem matchTail_of_shape {lab sp ds T : Name}
    (hsp : ∀ c ∈ sp, isPySpace c = true) (hds : ∀ c ∈ ds, c.isDigit = true)
    (hne : ds ≠ []) (hT : HeadNot Char.isDigit T) :
    matchTail lab (sp ++ ds ++ T) = some (⟨lab, sp, ds⟩, T) := by
  obtain ⟨ht1, hd1⟩ := takeWhile_append_all sp (ds ++ T) hsp (headNot_space_of_digits hds hne)
  obtain ⟨ht2, hd2⟩ := takeWhile_append_all ds T hds hT
  unfold matchTail
  rw [List.append_assoc, ht1, hd1, ht2, hd2, if_neg hne]

theorem matchTail_none_of_headNot {lab rest : Name}
    (h1 : HeadNot isPySpace rest) (h2 : HeadNot Char.isDigit rest) :
    matchTail lab rest = none := by
  cases rest with
  | nil => rfl
  | cons c r =>
    simp only [HeadNot] at h1 h2
    unfold matchTail
    simp [List.dropWhile_cons, List.takeWhile_cons, h1, h2]

theorem matchTail_dot_none (lab r : Name) : matchTail lab ('.' :: r) = none :=
  matchTail_none_of_headNot (by simp [HeadNot, isPySpace]) (by simp [HeadNot])

theorem matchTail_isSome {lab sp t : Name} {d : Char}
    (hsp : ∀ c ∈ sp, isPySpace c = true) (hd : d.isDigit = true) :
    (matchTail lab (sp ++ d :: t)).isSome = true := by
  have hhd : HeadNot isPySpace (d :: t) := by
    show isPySpace d = false
    exact isDigit_isPySpace_false hd
  obtain ⟨ht1, hd1⟩ := takeWhile_append_all sp (d :: t) hsp hhd
  unfold matchTail
  rw [hd1, List.takeWhile_cons, if_pos hd]
  rw [if_neg (by simp)]
  rfl

/-! ## matchAt lemmas -/

theorem forall₂_epPat {lab : Name}
    (h : List.Forall₂ (fun pr c => c = pr.1 ∨ c = pr.2) epPat lab) :
    ∃ e p, lab = [e, p] ∧ (e = 'e' ∨ e = 'E') ∧ (p = 'p' ∨ p = 'P') := by
  unfold epPat at h
  cases h with
  | cons h1 h =>
    cases h with
    | cons h2 h =>
      cases h
      exact ⟨_, _, rfl, h1, h2⟩

theorem forall₂_dotPat {lab : Name}
    (h : List.Forall₂ (fun pr c => c = pr.1 ∨ c = pr.2) dotPat lab) :
    lab = ['.'] := by
  unfold dotPat at h
  cases h with
  | cons h1 h =>
    cases h
    rcases h1 with h1 | h1 <;> rw [h1]

theorem forall₂_episodePat {lab : Name}
    (h : List.Forall₂ (fun pr c => c = pr.1 ∨ c = pr.2) episodePat lab) :
    ∃ c1 c2 c3 c4 c5 c6 c7, lab = [c1, c2, c3, c4, c5, c6, c7] ∧
      (c1 = 'e' ∨ c1 = 'E') ∧ (c2 = 'p' ∨ c2 = 'P') ∧ (c3 = 'i' ∨ c3 = 'I') ∧
      (c4 = 's' ∨ c4 = 'S') ∧ (c5 = 'o' ∨ c5 = 'O') ∧ (c6 = 'd' ∨ c6 = 'D') ∧
      (c7 = 'e' ∨ c7 = 'E') := by
  unfold episodePat at h
  cases h with
  | cons h1 h =>
    cases h with
    | cons h2 h =>
      cases h with
      | cons h3 h =>
        cases h with
        | cons h4 h =>
          cases h with
          | cons h5 h =>
            cases h with
            | cons h6 h =>
              cases h with
              | cons h7 h =>
                cases h
                exact ⟨_, _, _, _, _, _, _, rfl, h1, h2, h3, h4, h5, h6, h7⟩

theorem matchAtEp_some_shape {cs : Name} {m : Marker} {rest : Name}
    (h : matchAtEp cs = some (m, rest)) :
    MarkerShape m ∧ cs = markerText m ++ rest ∧ HeadNot Char.isDigit rest := by
  unfold matchAtEp at h
  cases h2 : stripCIP epPat cs with
  | none => rw [h2] at h; simp at h
  | some pr =>
    obtain ⟨lab, rest0⟩ := pr
    rw [h2] at h
    simp only [] at h
    obtain ⟨hcs, hfa⟩ := stripCIP_some_decomp _ _ _ _ h2
    obtain ⟨e, p, hlabeq, hpr1, hpr2⟩ := forall₂_epPat hfa
    subst hlabeq
    cases h3 : stripCIP dotPat rest0 with
    | none =>
      rw [h3] at h
      simp only [] at h
      obtain ⟨hlab, hdecomp, hspp, hdsp, hdsne, hhn⟩ := matchTail_some h
      refine ⟨⟨?_, hspp, hdsp, hdsne⟩, ?_, hhn⟩
      · rw [hlab]; exact LabelShape.ep e p hpr1 hpr2
      · rw [hcs, hdecomp]
        simp [markerText, hlab]
    | some pr2 =>
      obtain ⟨dot, r⟩ := pr2
      rw [h3] at h
      simp only [] at h
      obtain ⟨hrest0, hfad⟩ := stripCIP_some_decomp _ _ _ _ h3
      have hdot : dot = ['.'] := forall₂_dotPat hfad
      subst hdot
      cases h4 : matchTail ([e, p] ++ ['.']) r with
      | some x =>
        rw [h4] at h
        simp only [] at h
        obtain ⟨m2, rest2⟩ := x
        simp only [Option.some.injEq, Prod.mk.injEq] at h
        obtain ⟨hm2, hrest2⟩ := h
        subst hm2; subst hrest2
        obtain ⟨hlab, hdecomp, hspp, hdsp, hdsne, hhn⟩ := matchTail_some h4
        refine ⟨⟨?_, hspp, hdsp, hdsne⟩, ?_, hhn⟩
        · rw [hlab]; exact LabelShape.epdot e p hpr1 hpr2
        · rw [hcs, hrest0, hdecomp]
          simp [markerText, hlab]
      | none =>
        rw [h4] at h
        simp only [] at h
        rw [hrest0] at h
        rw [show (['.'] ++ r : Name) = '.' :: r from rfl, matchTail_dot_none] at h
        simp at h

theorem matchAtEpisode_some_shape {cs : Name} {m : Marker} {rest : Name}
    (h : matchAtEpisode cs = some (m, rest)) :
    MarkerShape m ∧ cs = markerText m ++ rest ∧ HeadNot Char.isDigit rest := by
  unfold matchAtEpisode at h
  cases h2 : stripCIP episodePat cs with
  | none => rw [h2] at h; simp at h
  | some pr =>
    obtain ⟨lab, rest0⟩ := pr
    rw [h2] at h
    simp only [] at h
    obtain ⟨hcs, hfa⟩ := stripCIP_some_decomp _ _ _ _ h2
    obtain ⟨c1, c2, c3, c4, c5, c6, c7, hlabeq, h1, h2x, h3, h4, h5, h6, h7⟩ :=
      forall₂_episodePat hfa
    subst hlabeq
    obtain ⟨hlab, hdecomp, hspp, hdsp, hdsne, hhn⟩ := matchTail_some h
    refine ⟨⟨?_, hspp, hdsp, hdsne⟩, ?_, hhn⟩
    · rw [hlab]
      exact LabelShape.episode c1 c2 c3 c4 c5 c6 c7 h1 h2x h3 h4 h5 h6 h7
    · rw [hcs, hdecomp]
      simp [markerText, hlab]

theorem matchAt_some_shape {cs : Name} {m : Marker} {rest : Name}
    (h : matchAt cs = some (m, rest)) :
    MarkerShape m ∧ cs = markerText m ++ rest ∧ HeadNot Char.isDigit rest := by
  unfold matchAt at h
  cases h2 : matchAtEp cs with
  | some x =>
    rw [h2] at h
    simp only [] at h
    obtain ⟨m2, rest2⟩ := x
    simp only [Option.some.injEq, Prod.mk.injEq] at h
    obtain ⟨hm, hr⟩ := h
    subst hm; subst hr
    exact matchAtEp_some_shape h2
  | none =>
    rw [h2] at h
    simp only [] at h
    exact matchAtEpisode_some_shape h

theorem head_ne_dot_of_space_digits {sp ds T : Name} (hsp : ∀ c ∈ sp, isPySpace c = true)
    (hds : ∀ c ∈ ds, c.isDigit = true) (hne : ds ≠ []) :
    ∀ c cs2, sp ++ (ds ++ T) = c :: cs2 → c ≠ '.' := by
  intro c cs2 heq
  cases sp with
  | cons s sp2 =>
    simp only [List.cons_append, List.cons.injEq] at heq
    obtain ⟨h1, -⟩ := heq
    subst h1
    exact isPySpace_ne_dot (hsp _ (by simp))
  | nil =>
    cases ds with
    | nil => exact absurd rfl hne
    | cons d ds2 =>
      simp only [List.nil_append, List.cons_append, List.cons.injEq] at heq
      obtain ⟨h1, -⟩ := heq
      subst h1
      exact isDigit_ne_dot (hds _ (by simp))

theorem stripCIP_dotPat_none {cs : Name} (h : ∀ c cs2, cs = c :: cs2 → c ≠ '.') :
    stripCIP dotPat cs = none := by
  cases cs with
  | nil => rfl
  | cons c cs2 =>
    have hc := h c cs2 rfl
    unfold dotPat stripCIP
    rw [if_neg (by simp [hc])]

theorem forall₂_epPat_intro {e p : Char} (h1 : e = 'e' ∨ e = 'E') (h2 : p = 'p' ∨ p = 'P') :
    List.Forall₂ (fun pr c => c = pr.1 ∨ c = pr.2) epPat [e, p] := by
  unfold epPat
  exact List.Forall₂.cons h1 (List.Forall₂.cons h2 List.Forall₂.nil)

theorem forall₂_dotPat_intro :
    List.Forall₂ (fun pr c => c = pr.1 ∨ c = pr.2) dotPat ['.'] := by
  unfold dotPat
  exact List.Forall₂.cons (Or.inl rfl) List.Forall₂.nil

theorem forall₂_episodePat_intro {c1 c2 c3 c4 c5 c6 c7 : Char}
    (h1 : c1 = 'e' ∨ c1 = 'E') (h2 : c2 = 'p' ∨ c2 = 'P') (h3 : c3 = 'i' ∨ c3 = 'I')
    (h4 : c4 = 's' ∨ c4 = 'S') (h5 : c5 = 'o' ∨ c5 = 'O') (h6 : c6 = 'd' ∨ c6 = 'D')
    (h7 : c7 = 'e' ∨ c7 = 'E') :
    List.Forall₂ (fun pr c => c = pr.1 ∨ c = pr.2) episodePat
      [c1, c2, c3, c4, c5, c6, c7] := by
  unfold episodePat
  exact List.Forall₂.cons h1 (List.Forall₂.cons h2 (List.Forall₂.cons h3
    (List.Forall₂.cons h4 (List.Forall₂.cons h5 (List.Forall₂.cons h6
      (List.Forall₂.cons h7 List.Forall₂.nil))))))

theorem matchAt_of_shape {m : Marker} {T : Name} (hm : MarkerShape m)
    (hT : HeadNot Char.isDigit T) :
    matchAt (markerText m ++ T) = some (m, T) := by
  obtain ⟨L, sp, ds⟩ := m
  obtain ⟨hL, hsp, hds, hne⟩ := hm
  dsimp only at hL hsp hds hne
  cases hL with
  | ep e p hpr1 hpr2 =>
    have hstrip : stripCIP epPat (e :: p :: (sp ++ (ds ++ T))) = some ([e, p], sp ++ (ds ++ T)) := by
      have := stripCIP_append
        (forall₂_epPat_intro hpr1 hpr2) (sp ++ (ds ++ T))
      simpa using this
    have hdotn : stripCIP dotPat (sp ++ (ds ++ T)) = none :=
      stripCIP_dotPat_none (head_ne_dot_of_space_digits hsp hds hne)
    have htail : matchTail [e, p] (sp ++ ds ++ T) = some (⟨[e, p], sp, ds⟩, T) :=
      matchTail_of_shape hsp hds hne hT
    unfold matchAt matchAtEp
    rw [show (markerText ⟨[e, p], sp, ds⟩ ++ T : Name) = e :: p :: (sp ++ (ds ++ T)) by
      simp [markerText]]
    rw [hstrip]
    simp only []
    rw [hdotn]
    simp only []
    rw [List.append_assoc] at htail
    rw [htail]
  | epdot e p hpr1 hpr2 =>
    have hstrip : stripCIP epPat (e :: p :: '.' :: (sp ++ (ds ++ T))) =
        some ([e, p], '.' :: (sp ++ (ds ++ T))) := by
      have := stripCIP_append
        (forall₂_epPat_intro hpr1 hpr2)
        ('.' :: (sp ++ (ds ++ T)))
      simpa using this
    have hdot : stripCIP dotPat ('.' :: (sp ++ (ds ++ T))) =
        some (['.'], sp ++ (ds ++ T)) := by
      have := stripCIP_append
        forall₂_dotPat_intro (sp ++ (ds ++ T))
      simpa using this
    have htail : matchTail ([e, p] ++ ['.']) (sp ++ ds ++ T) =
        some (⟨[e, p, '.'], sp, ds⟩, T) :=
      matchTail_of_shape hsp hds hne hT
    unfold matchAt matchAtEp
    rw [show (markerText ⟨[e, p, '.'], sp, ds⟩ ++ T : Name) =
        e :: p :: '.' :: (sp ++ (ds ++ T)) by simp [markerText]]
    rw [hstrip]
    simp only []
    rw [hdot]
    simp only []
    rw [List.append_assoc] at htail
    rw [htail]
  | episode c1 c2 c3 c4 c5 c6 c7 h1 h2 h3 h4 h5 h6 h7 =>
    have hc3dot : c3 ≠ '.' := by rcases h3 with h | h <;> subst h <;> decide
    have hc3space : isPySpace c3 = false := twoCase_not_space h3 (by decide) (by decide)
    have hc3digit : c3.isDigit = false := twoCase_not_digit h3 (by decide) (by decide)
    have hstrip : stripCIP epPat
        (c1 :: c2 :: (c3 :: c4 :: c5 :: c6 :: c7 :: (sp ++ (ds ++ T)))) =
        some ([c1, c2], c3 :: c4 :: c5 :: c6 :: c7 :: (sp ++ (ds ++ T))) := by
      have := stripCIP_append
        (forall₂_epPat_intro h1 h2)
        (c3 :: c4 :: c5 :: c6 :: c7 :: (sp ++ (ds ++ T)))
      simpa using this
    have hdotn : stripCIP dotPat (c3 :: c4 :: c5 :: c6 :: c7 :: (sp ++ (ds ++ T))) = none := by
      apply stripCIP_dotPat_none
      intro c cs2 heq
      simp only [List.cons.injEq] at heq
      obtain ⟨hc, -⟩ := heq
      subst hc
      exact hc3dot
    have htail0 : matchTail [c1, c2] (c3 :: c4 :: c5 :: c6 :: c7 :: (sp ++ (ds ++ T))) = none :=
      matchTail_none_of_headNot (by simp [HeadNot, hc3space]) (by simp [HeadNot, hc3digit])
    have hstrip7 : stripCIP episodePat
        (c1 :: c2 :: c3 :: c4 :: c5 :: c6 :: c7 :: (sp ++ (ds ++ T))) =
        some ([c1, c2, c3, c4, c5, c6, c7], sp ++ (ds ++ T)) := by
      have := stripCIP_append
        (forall₂_episodePat_intro h1 h2 h3 h4 h5 h6 h7) (sp ++ (ds ++ T))
      simpa using this
    have htail : matchTail [c1, c2, c3, c4, c5, c6, c7] (sp ++ ds ++ T) =
        some (⟨[c1, c2, c3, c4, c5, c6, c7], sp, ds⟩, T) :=
      matchTail_of_shape hsp hds hne hT
    unfold matchAt matchAtEp matchAtEpisode
    rw [show (markerText ⟨[c1, c2, c3, c4, c5, c6, c7], sp, ds⟩ ++ T : Name) =
        c1 :: c2 :: (c3 :: c4 :: c5 :: c6 :: c7 :: (sp ++ (ds ++ T))) by simp [markerText]]
    rw [hstrip]
    simp only []
    rw [hdotn]
    simp only []
    rw [htail0]
    simp only []
    rw [hstrip7]
    simp only []
    rw [List.append_assoc] at htail
    rw [htail]

theorem hasMarkerPos_of_matchAt_some {cs : Name} {m : Marker} {rest : Name}
    (h : matchAt cs = some (m, rest)) : HasMarkerPos cs := by
  obtain ⟨⟨hL, hsp, hds, hne⟩, hdecomp, -⟩ := matchAt_some_shape h
  cases hd : m.digits with
  | nil => exact absurd hd hne
  | cons d ds2 =>
    refine ⟨m.label, m.sp, d, ds2 ++ rest, ?_, hL, hsp, hds d (by rw [hd]; simp)⟩
    rw [hdecomp, markerText, hd]
    simp

theorem matchAt_isSome_of_hasMarkerPos {cs : Name} (h : HasMarkerPos cs) :
    (matchAt cs).isSome = true := by
  obtain ⟨L, sp, d, t, heq, hL, hsp, hd⟩ := h
  subst heq
  cases hL with
  | ep e p hpr1 hpr2 =>
    have hstrip : stripCIP epPat (e :: p :: (sp ++ d :: t)) = some ([e, p], sp ++ d :: t) := by
      have := stripCIP_append
        (forall₂_epPat_intro hpr1 hpr2) (sp ++ d :: t)
      simpa using this
    have hdotn : stripCIP dotPat (sp ++ d :: t) = none := by
      apply stripCIP_dotPat_none
      have := @head_ne_dot_of_space_digits _ [d] t hsp
        (by intro c hc; simp at hc; subst hc; exact hd) (by simp)
      intro c cs2 heq2
      exact this c cs2 (by simpa using heq2)
    have htail := @matchTail_isSome [e, p] _ t _ hsp hd
    unfold matchAt matchAtEp
    rw [show ([e, p] ++ (sp ++ d :: t) : Name) = e :: p :: (sp ++ d :: t) by simp]
    rw [hstrip]
    simp only []
    rw [hdotn]
    simp only []
    obtain ⟨x, hx⟩ := Option.isSome_iff_exists.mp htail
    rw [hx]
    rfl
  | epdot e p hpr1 hpr2 =>
    have hstrip : stripCIP epPat (e :: p :: '.' :: (sp ++ d :: t)) =
        some ([e, p], '.' :: (sp ++ d :: t)) := by
      have := stripCIP_append
        (forall₂_epPat_intro hpr1 hpr2)
        ('.' :: (sp ++ d :: t))
      simpa using this
    have hdot : stripCIP dotPat ('.' :: (sp ++ d :: t)) = some (['.'], sp ++ d :: t) := by
      have := stripCIP_append
        forall₂_dotPat_intro (sp ++ d :: t)
      simpa using this
    have htail := @matchTail_isSome ([e, p] ++ ['.']) _ t _ hsp hd
    unfold matchAt matchAtEp
    rw [show ([e, p, '.'] ++ (sp ++ d :: t) : Name) = e :: p :: '.' :: (sp ++ d :: t) by simp]
    rw [hstrip]
    simp only []
    rw [hdot]
    simp only []
    obtain ⟨x, hx⟩ := Option.isSome_iff_exists.mp htail
    rw [hx]
    rfl
  | episode c1 c2 c3 c4 c5 c6 c7 h1 h2 h3 h4 h5 h6 h7 =>
    have hc3dot : c3 ≠ '.' := by rcases h3 with h | h <;> subst h <;> decide
    have hc3space : isPySpace c3 = false := twoCase_not_space h3 (by decide) (by decide)
    have hc3digit : c3.isDigit = false := twoCase_not_digit h3 (by decide) (by decide)
    have hstrip : stripCIP epPat
        (c1 :: c2 :: (c3 :: c4 :: c5 :: c6 :: c7 :: (sp ++ d :: t))) =
        some ([c1, c2], c3 :: c4 :: c5 :: c6 :: c7 :: (sp ++ d :: t)) := by
      have := stripCIP_append
        (forall₂_epPat_intro h1 h2)
        (c3 :: c4 :: c5 :: c6 :: c7 :: (sp ++ d :: t))
      simpa using this
    have hdotn : stripCIP dotPat (c3 :: c4 :: c5 :: c6 :: c7 :: (sp ++ d :: t)) = none := by
      apply stripCIP_dotPat_none
      intro c cs2 heq
      simp only [List.cons.injEq] at heq
      obtain ⟨hc, -⟩ := heq
      subst hc
      exact hc3dot
    have htail0 : matchTail [c1, c2] (c3 :: c4 :: c5 :: c6 :: c7 :: (sp ++ d :: t)) = none :=
      matchTail_none_of_headNot (by simp [HeadNot, hc3space]) (by simp [HeadNot, hc3digit])
    have hstrip7 : stripCIP episodePat
        (c1 :: c2 :: c3 :: c4 :: c5 :: c6 :: c7 :: (sp ++ d :: t)) =
        some ([c1, c2, c3, c4, c5, c6, c7], sp ++ d :: t) := by
      have := stripCIP_append
        (forall₂_episodePat_intro h1 h2 h3 h4 h5 h6 h7) (sp ++ d :: t)
      simpa using this
    have htail := @matchTail_isSome [c1, c2, c3, c4, c5, c6, c7] _ t _ hsp hd
    unfold matchAt matchAtEp matchAtEpisode
    rw [show ([c1, c2, c3, c4, c5, c6, c7] ++ (sp ++ d :: t) : Name) =
        c1 :: c2 :: (c3 :: c4 :: c5 :: c6 :: c7 :: (sp ++ d :: t)) by simp]
    rw [hstrip]
    simp only []
    rw [hdotn]
    simp only []
    rw [htail0]
    simp only []
    rw [hstrip7]
    simp only []
    obtain ⟨x, hx⟩ := Option.isSome_iff_exists.mp htail
    rw [hx]
    rfl

/-- A match of the marker pattern inside `u ++ region`, where `region` is a
label followed by spaces, digits and anything, and `u` is nonempty, cannot
straddle the boundary: its label/space/digit core lies entirely inside `u`.
This is what makes `pattern.sub` stable: replacing a marker by another
marker-shaped text with the same label cannot create or destroy earlier
matches. -/
theorem hasMarkerPos_straddle {u L0 ss dd T : Name}
    (hu : u ≠ []) (hL0 : LabelShape L0) (hss : ∀ c ∈ ss, isPySpace c = true)
    (hdd : ∀ c ∈ dd, c.isDigit = true) (hddne : dd ≠ [])
    (h : HasMarkerPos (u ++ (L0 ++ (ss ++ (dd ++ T))))) : HasMarkerPos u := by
  obtain ⟨L, sp, d, t, heq, hL, hsp, hd⟩ := h
  by_cases hfit : L.length + sp.length + 1 ≤ u.length
  · -- the whole core [label][spaces][digit] is inside u
    have heq2 : u ++ (L0 ++ (ss ++ (dd ++ T))) = (L ++ (sp ++ [d])) ++ t := by
      rw [heq]; simp
    have hAlen : (L ++ (sp ++ [d])).length = L.length + sp.length + 1 := by
      simp
      omega
    have hutake : u = (L ++ (sp ++ [d])) ++
        List.take (u.length - (L.length + sp.length + 1)) t := by
      have h1 : u = List.take u.length (u ++ (L0 ++ (ss ++ (dd ++ T)))) :=
        (List.take_left u _).symm
      rw [heq2, List.take_append_eq_append_take,
        List.take_of_length_le (by omega : (L ++ (sp ++ [d])).length ≤ u.length),
        hAlen] at h1
      exact h1
    refine ⟨L, sp, d, List.take (u.length - (L.length + sp.length + 1)) t, ?_, hL, hsp, hd⟩
    conv_lhs => rw [hutake]
    simp only [List.append_assoc, List.singleton_append]
  · exfalso
    obtain ⟨e0, L0t, hL0eq, -⟩ := labelShape_head hL0
    have he0mem : e0 ∈ L0 := by rw [hL0eq]; simp
    obtain ⟨he0dig, he0sp⟩ := labelShape_chars hL0 e0 he0mem
    have hn1 : 1 ≤ u.length := List.length_pos.mpr hu
    rcases Nat.lt_or_ge u.length L.length with hcase1 | hcase2
    · -- the match label L runs past all of u into the region
      rcases Nat.lt_trichotomy L.length (u.length + L0.length) with h1a | h1b | h1c
      · -- L ends inside L0: the character right after L is a label character,
        -- but the match needs a space or its digit there
        have hleft : (u ++ (L0 ++ (ss ++ (dd ++ T))))[L.length]? =
            L0[L.length - u.length]? := by
          rw [List.getElem?_append_right (by omega)]
          rw [List.getElem?_append, if_pos (by omega)]
        have hlt : L.length - u.length < L0.length := by omega
        rw [List.getElem?_eq_getElem hlt] at hleft
        obtain ⟨hc0dig, hc0sp⟩ :=
          labelShape_chars hL0 (L0[L.length - u.length]) (List.getElem_mem _)
        have hright : (L ++ (sp ++ d :: t))[L.length]? = (sp ++ d :: t)[0]? := by
          rw [List.getElem?_append_right (le_refl _)]
          rw [Nat.sub_self]
        rw [heq] at hleft
        rw [hleft] at hright
        cases hspc : sp with
        | nil =>
          rw [hspc] at hright
          simp only [List.nil_append, List.getElem?_cons_zero, Option.some.injEq] at hright
          rw [← hright] at hd
          rw [hd] at hc0dig
          exact absurd hc0dig (by simp)
        | cons s0 sp2 =>
          rw [hspc] at hright
          simp only [List.cons_append, List.getElem?_cons_zero, Option.some.injEq] at hright
          have hs0 : isPySpace s0 = true := hsp s0 (by rw [hspc]; simp)
          rw [← hright] at hs0
          rw [hs0] at hc0sp
          exact absurd hc0sp (by simp)
      · -- L is exactly u ++ L0: a label would be a proper suffix of a label
        have hLu : L = u ++ L0 := by
          have h1 : List.take L.length (L ++ (sp ++ d :: t)) = L := List.take_left _ _
          have h2 : (u ++ L0) ++ (ss ++ (dd ++ T)) = L ++ (sp ++ d :: t) := by
            rw [← heq]; simp
          have h3 : List.take L.length ((u ++ L0) ++ (ss ++ (dd ++ T))) = u ++ L0 := by
            have h4 : L.length = (u ++ L0).length := by simp [h1b]
            rw [h4, List.take_left]
          rw [h2, h1] at h3
          exact h3
        exact labelShape_not_proper_suffix hL hL0 hu hLu
      · -- L runs past L0: the character right after L0 is a space or digit,
        -- but it would have to be a label character of L
        have hleft : (u ++ (L0 ++ (ss ++ (dd ++ T))))[u.length + L0.length]? =
            (ss ++ (dd ++ T))[0]? := by
          have h2 : u ++ (L0 ++ (ss ++ (dd ++ T))) = (u ++ L0) ++ (ss ++ (dd ++ T)) := by
            simp
          rw [h2]
          rw [List.getElem?_append_right (by simp)]
          simp
        have hright : (L ++ (sp ++ d :: t))[u.length + L0.length]? =
            L[u.length + L0.length]? := by
          rw [List.getElem?_append, if_pos (by omega)]
        rw [List.getElem?_eq_getElem (by omega : u.length + L0.length < L.length)] at hright
        obtain ⟨hcqdig, hcqsp⟩ :=
          labelShape_chars hL (L[u.length + L0.length]) (List.getElem_mem _)
        rw [heq] at hleft
        rw [hright] at hleft
        cases hssc : ss with
        | nil =>
          cases hddc : dd with
          | nil => exact hddne hddc
          | cons d0 dd2 =>
            rw [hssc, hddc] at hleft
            simp only [List.nil_append, List.cons_append, List.getElem?_cons_zero,
              Option.some.injEq] at hleft
            have hd0 : d0.isDigit = true := hdd d0 (by rw [hddc]; simp)
            rw [← hleft] at hd0
            rw [hd0] at hcqdig
            exact absurd hcqdig (by simp)
        | cons s0 ss2 =>
          rw [hssc] at hleft
          simp only [List.cons_append, List.getElem?_cons_zero, Option.some.injEq] at hleft
          have hs0 : isPySpace s0 = true := hss s0 (by rw [hssc]; simp)
          rw [← hleft] at hs0
          rw [hs0] at hcqsp
          exact absurd hcqsp (by simp)
    · -- u ends inside the spaces or at the digit of the match: the first
      -- region character e0 would have to be a space or the digit
      have hleft : (u ++ (L0 ++ (ss ++ (dd ++ T))))[u.length]? = some e0 := by
        rw [List.getElem?_append_right (le_refl _)]
        rw [Nat.sub_self, hL0eq]
        simp
      rw [heq] at hleft
      rcases Nat.lt_or_ge u.length (L.length + sp.length) with hcase2a | hcase2b
      · -- u ends strictly inside the spaces
        have hright : (L ++ (sp ++ d :: t))[u.length]? = sp[u.length - L.length]? := by
          rw [List.getElem?_append_right (by omega)]
          rw [List.getElem?_append, if_pos (by omega)]
        have hlt : u.length - L.length < sp.length := by omega
        rw [List.getElem?_eq_getElem hlt] at hright
        rw [hleft] at hright
        have hsmem : isPySpace (sp[u.length - L.length]) = true :=
          hsp _ (List.getElem_mem _)
        simp only [Option.some.injEq] at hright
        rw [← hright] at hsmem
        rw [hsmem] at he0sp
        exact absurd he0sp (by simp)
      · -- u ends exactly at the matched digit
        have hright : (L ++ (sp ++ d :: t))[u.length]? = some d := by
          rw [List.getElem?_append_right (by omega)]
          have h2 : u.length - L.length = sp.length := by omega
          rw [h2]
          rw [List.getElem?_append_right (le_refl _)]
          rw [Nat.sub_self]
          simp
        rw [hleft] at hright
        simp only [Option.some.injEq] at hright
        rw [← hright] at hd
        rw [hd] at he0dig
        exact absurd he0dig (by simp)

/-! ## findMarker decomposition and composition -/

theorem noMatchBefore_nil {tail : Name} : NoMatchBefore [] tail := by
  intro a c b hsplit
  exact absurd hsplit (by simp)

theorem matchAt_nil : matchAt [] = none := rfl

theorem hasMarkerPos_append_right {u : Name} (h : HasMarkerPos u) (X : Name) :
    HasMarkerPos (u ++ X) := by
  obtain ⟨L, sp, d, t, heq, hL, hsp, hd⟩ := h
  exact ⟨L, sp, d, t ++ X, by rw [heq]; simp, hL, hsp, hd⟩

theorem findMarker_decomp :
    ∀ (cs pre : Name) (m : Marker) (rest : Name),
      findMarker cs = some (pre, m, rest) →
      cs = pre ++ (markerText m ++ rest) ∧ MarkerShape m ∧ HeadNot Char.isDigit rest ∧
      NoMatchBefore pre (markerText m ++ rest) := by
  intro cs
  induction cs with
  | nil => intro pre m rest h; simp [findMarker] at h
  | cons c cs2 ih =>
    intro pre m rest h
    unfold findMarker at h
    cases h2 : matchAt (c :: cs2) with
    | some x =>
      rw [h2] at h
      simp only [] at h
      obtain ⟨m0, rest0⟩ := x
      simp only [Option.some.injEq, Prod.mk.injEq] at h
      obtain ⟨hpre, hm, hrest⟩ := h
      subst hpre; subst hm; subst hrest
      obtain ⟨hshape, hdecomp, hhd⟩ := matchAt_some_shape h2
      exact ⟨by rw [hdecomp]; simp, hshape, hhd, noMatchBefore_nil⟩
    | none =>
      rw [h2] at h
      simp only [] at h
      cases h3 : findMarker cs2 with
      | none => rw [h3] at h; simp at h
      | some pr =>
        obtain ⟨p2, m2, r2⟩ := pr
        rw [h3] at h
        simp only [Option.map_some', Option.some.injEq, Prod.mk.injEq] at h
        obtain ⟨hpre, hm, hrest⟩ := h
        obtain ⟨hcs2, hshape, hhd, hclean⟩ := ih p2 m2 r2 h3
        subst hpre; subst hm; subst hrest
        refine ⟨by rw [hcs2]; simp, hshape, hhd, ?_⟩
        intro a x b hsplit
        cases a with
        | nil =>
          simp only [List.nil_append, List.cons.injEq] at hsplit
          obtain ⟨hx, hb⟩ := hsplit
          subst hx; subst hb
          rw [← hcs2]
          exact h2
        | cons a0 a2 =>
          simp only [List.cons_append, List.cons.injEq] at hsplit
          obtain ⟨-, hb⟩ := hsplit
          exact hclean a2 x b hb

theorem findMarker_append_of_clean {pre R : Name} {m : Marker} {rest : Name}
    (hc : NoMatchBefore pre R) (hR : matchAt R = some (m, rest)) :
    findMarker (pre ++ R) = some (pre, m, rest) := by
  induction pre with
  | nil =>
    cases R with
    | nil => rw [matchAt_nil] at hR; simp at hR
    | cons r0 R2 =>
      simp only [List.nil_append]
      unfold findMarker
      rw [hR]
  | cons c pre2 ih =>
    have hnone : matchAt (c :: (pre2 ++ R)) = none := hc [] c pre2 rfl
    have hc2 : NoMatchBefore pre2 R := by
      intro a x b hsplit
      exact hc (c :: a) x b (by rw [hsplit]; rfl)
    simp only [List.cons_append]
    unfold findMarker
    rw [hnone]
    simp only []
    rw [ih hc2]
    rfl

/-- Transfer of "no match starts inside `pre`" between two marker-shaped
continuations with the same label (the straddle lemma does the work). -/
theorem noMatchBefore_transfer {pre Z Y : Name} {m m2 : Marker}
    (_hm : MarkerShape m) (hm2 : MarkerShape m2) (_hlab : m2.label = m.label)
    (hc : NoMatchBefore pre (markerText m ++ Z)) :
    NoMatchBefore pre (markerText m2 ++ Y) := by
  intro a c b hsplit
  by_contra hne
  have hsome : (matchAt (c :: (b ++ (markerText m2 ++ Y)))).isSome = true := by
    rw [← Option.ne_none_iff_isSome]
    exact hne
  have hx : matchAt (c :: (b ++ (markerText m2 ++ Y))) ≠ none := by
    rw [Option.ne_none_iff_isSome]
    exact hsome
  obtain ⟨x, hxeq⟩ := Option.isSome_iff_exists.mp hsome
  obtain ⟨mm, rr⟩ := x
  have hpos : HasMarkerPos (c :: (b ++ (markerText m2 ++ Y))) :=
    hasMarkerPos_of_matchAt_some hxeq
  obtain ⟨hL2, hsp2, hds2, hne2⟩ := hm2
  have hpos2 : HasMarkerPos ((c :: b) ++
      (m2.label ++ (m2.sp ++ (m2.digits ++ Y)))) := by
    have hre : (c :: b) ++ (m2.label ++ (m2.sp ++ (m2.digits ++ Y))) =
        c :: (b ++ (markerText m2 ++ Y)) := by
      simp [markerText]
    rw [hre]
    exact hpos
  have hstr : HasMarkerPos (c :: b) :=
    hasMarkerPos_straddle (by simp) hL2 hsp2 hds2 hne2 hpos2
  have hpos3 : HasMarkerPos ((c :: b) ++ (markerText m ++ Z)) :=
    hasMarkerPos_append_right hstr _
  have hsome3 : (matchAt ((c :: b) ++ (markerText m ++ Z))).isSome = true :=
    matchAt_isSome_of_hasMarkerPos hpos3
  have hnone3 : matchAt (c :: (b ++ (markerText m ++ Z))) = none := hc a c b hsplit
  rw [show ((c :: b) ++ (markerText m ++ Z) : Name) =
      c :: (b ++ (markerText m ++ Z)) by simp] at hsome3
  rw [hnone3] at hsome3
  simp at hsome3

/-! ## subMarkers: unfolding, stability, idempotence -/

theorem subMarkersFuel_none {w : Nat} {cs : Name} (h : findMarker cs = none) :
    ∀ f, subMarkersFuel w f cs = cs := by
  intro f
  cases f with
  | zero => rfl
  | succ f2 =>
    unfold subMarkersFuel
    rw [h]

theorem markerText_length_pos {m : Marker} (hm : MarkerShape m) :
    1 ≤ (markerText m).length := by
  obtain ⟨-, -, -, hne⟩ := hm
  have := List.length_pos.mpr hne
  simp only [markerText, List.length_append]
  omega

theorem findMarker_rest_length {cs pre : Name} {m : Marker} {rest : Name}
    (h : findMarker cs = some (pre, m, rest)) : rest.length < cs.length := by
  obtain ⟨hcs, hm, -, -⟩ := findMarker_decomp _ _ _ _ h
  have hlen := markerText_length_pos hm
  have : cs.length = pre.length + ((markerText m).length + rest.length) := by
    rw [hcs]; simp
  omega

theorem subMarkersFuel_succ (w f : Nat) (cs : Name) :
    subMarkersFuel w (f + 1) cs =
      match findMarker cs with
      | none => cs
      | some (pre, m, rest) => pre ++ renderMarker w m ++ subMarkersFuel w f rest := rfl

theorem subMarkersFuel_of_le (w : Nat) :
    ∀ (f : Nat) (cs : Name), cs.length ≤ f → subMarkersFuel w f cs = subMarkers w cs := by
  intro f
  induction f using Nat.strong_induction_on with
  | _ f IH =>
    intro cs hle
    cases h : findMarker cs with
    | none =>
      rw [subMarkersFuel_none h, subMarkers, subMarkersFuel_none h]
    | some pr =>
      obtain ⟨pre, m, rest⟩ := pr
      have hcsne : cs ≠ [] := by
        intro hnil
        rw [hnil] at h
        simp [findMarker] at h
      have hrl := findMarker_rest_length h
      have hcs1 : 1 ≤ cs.length := List.length_pos.mpr hcsne
      obtain ⟨f2, rfl⟩ : ∃ f2, f = f2 + 1 := ⟨f - 1, by omega⟩
      cases hlen : cs.length with
      | zero => exact absurd (List.length_eq_zero.mp hlen) hcsne
      | succ k =>
        rw [subMarkersFuel_succ, h]
        simp only []
        rw [subMarkers, hlen, subMarkersFuel_succ, h]
        simp only []
        rw [IH f2 (by omega) rest (by omega), IH k (by omega) rest (by omega)]

theorem subMarkers_of_none {w : Nat} {cs : Name} (h : findMarker cs = none) :
    subMarkers w cs = cs := by
  rw [subMarkers, subMarkersFuel_none h]

theorem subMarkers_eq_of_findMarker {w : Nat} {cs pre : Name} {m : Marker} {rest : Name}
    (h : findMarker cs = some (pre, m, rest)) :
    subMarkers w cs = pre ++ renderMarker w m ++ subMarkers w rest := by
  have hrl := findMarker_rest_length h
  have hcsne : cs ≠ [] := by
    intro hnil
    rw [hnil] at h
    simp [findMarker] at h
  cases hlen : cs.length with
  | zero => exact absurd (List.length_eq_zero.mp hlen) hcsne
  | succ k =>
    rw [subMarkers, hlen, subMarkersFuel_succ, h]
    simp only []
    rw [subMarkersFuel_of_le w k rest (by omega)]

theorem renderMarker_eq_markerText (w : Nat) (m : Marker) :
    renderMarker w m = markerText (paddedMarker w m) := by
  simp [renderMarker, markerText, paddedMarker]

theorem paddedMarker_shape {m : Marker} (hm : MarkerShape m) (w : Nat) :
    MarkerShape (paddedMarker w m) := by
  obtain ⟨hL, -, -, -⟩ := hm
  refine ⟨hL, ?_, ?_, ?_⟩
  · intro c hc
    simp only [paddedMarker, List.mem_singleton] at hc
    subst hc
    decide
  · exact zfill_all_digit (natDigits_all_digit _)
  · exact zfill_ne_nil (natDigits_ne_nil _)

theorem paddedMarker_value (w : Nat) (m : Marker) :
    digitsToNat (paddedMarker w m).digits = digitsToNat m.digits := by
  simp [paddedMarker, digitsToNat_zfill, digitsToNat_natDigits]

theorem headNot_digit_subMarkers {w : Nat} {cs : Name} (h : HeadNot Char.isDigit cs) :
    HeadNot Char.isDigit (subMarkers w cs) := by
  cases hf : findMarker cs with
  | none => rw [subMarkers_of_none hf]; exact h
  | some pr =>
    obtain ⟨pre, m, rest⟩ := pr
    rw [subMarkers_eq_of_findMarker hf]
    obtain ⟨hcs, hm, -, -⟩ := findMarker_decomp _ _ _ _ hf
    cases pre with
    | nil =>
      obtain ⟨hL, -, -, -⟩ := hm
      obtain ⟨e0, L0t, hL0eq, -⟩ := labelShape_head hL
      obtain ⟨he0dig, -⟩ := labelShape_chars hL e0 (by rw [hL0eq]; simp)
      simp only [List.nil_append, renderMarker, hL0eq]
      show Char.isDigit e0 = false
      exact he0dig
    | cons c pre2 =>
      have hc : Char.isDigit c = false := by
        rw [hcs] at h
        exact h
      show Char.isDigit c = false
      exact hc

/-- Stability of the leftmost marker under `pattern.sub`: the substituted
name's first marker sits at the same prefix, keeps the label, carries one
space, and its digits are the old number padded to width `w`. -/
theorem findMarker_subMarkers {w : Nat} {cs pre : Name} {m : Marker} {rest : Name}
    (h : findMarker cs = some (pre, m, rest)) :
    findMarker (subMarkers w cs) = some (pre, paddedMarker w m, subMarkers w rest) := by
  obtain ⟨hcs, hm, hrest, hclean⟩ := findMarker_decomp _ _ _ _ h
  have hm2 : MarkerShape (paddedMarker w m) := paddedMarker_shape hm w
  have hhead2 : HeadNot Char.isDigit (subMarkers w rest) := headNot_digit_subMarkers hrest
  have hAt : matchAt (markerText (paddedMarker w m) ++ subMarkers w rest) =
      some (paddedMarker w m, subMarkers w rest) := matchAt_of_shape hm2 hhead2
  have hclean2 : NoMatchBefore pre (markerText (paddedMarker w m) ++ subMarkers w rest) :=
    noMatchBefore_transfer hm hm2 rfl hclean
  have hres := findMarker_append_of_clean hclean2 hAt
  rw [subMarkers_eq_of_findMarker h, renderMarker_eq_markerText, List.append_assoc]
  exact hres

theorem renderMarker_paddedMarker (w : Nat) (m : Marker) :
    renderMarker w (paddedMarker w m) = renderMarker w m := by
  unfold renderMarker
  rw [paddedMarker_value]
  rfl

theorem subMarkers_subMarkers (w : Nat) :
    ∀ (n : Nat) (cs : Name), cs.length ≤ n →
      subMarkers w (subMarkers w cs) = subMarkers w cs := by
  intro n
  induction n using Nat.strong_induction_on with
  | _ n IH =>
    intro cs hle
    cases h : findMarker cs with
    | none => rw [subMarkers_of_none h, subMarkers_of_none h]
    | some pr =>
      obtain ⟨pre, m, rest⟩ := pr
      have hrl := findMarker_rest_length h
      have h2 := @findMarker_subMarkers w _ _ _ _ h
      rw [subMarkers_eq_of_findMarker h2]
      have hi : subMarkers w (subMarkers w rest) = subMarkers w rest :=
        IH rest.length (by omega) rest (le_refl _)
      rw [hi, subMarkers_eq_of_findMarker h, renderMarker_paddedMarker]

theorem subMarkers_idem (w : Nat) (cs : Name) :
    subMarkers w (subMarkers w cs) = subMarkers w cs :=
  subMarkers_subMarkers w cs.length cs (le_refl _)

/-! ## pad_episode_numbers: width invariance and idempotence -/

theorem firstVal_subMarkers {w : Nat} {n : Name} :
    (findMarker (subMarkers w n)).map (fun pr => digitsToNat pr.2.1.digits) =
    (findMarker n).map (fun pr => digitsToNat pr.2.1.digits) := by
  cases h : findMarker n with
  | none => rw [subMarkers_of_none h, h]
  | some pr =>
    obtain ⟨pre, m, rest⟩ := pr
    rw [findMarker_subMarkers h]
    simp [paddedMarker_value]

theorem pad_eq_map {names : List Name} (h : ¬ extractPairs names = []) :
    pad_episode_numbers names = names.map (padFile (padWidth names)) := by
  simp only [pad_episode_numbers, if_neg h]
  rfl

theorem firstVal_padFile {w : Nat} {n : Name} :
    (findMarker (padFile w n)).map (fun pr => digitsToNat pr.2.1.digits) =
    (findMarker n).map (fun pr => digitsToNat pr.2.1.digits) := by
  unfold padFile
  by_cases h : (findMarker n).isSome
  · rw [if_pos h]
    exact firstVal_subMarkers
  · rw [if_neg h]

theorem extract_vals_map_padFile (w : Nat) (names : List Name) :
    (extractPairs (names.map (padFile w))).map (fun pr => pr.2) =
    (extractPairs names).map (fun pr => pr.2) := by
  unfold extractPairs
  rw [List.map_filterMap, List.map_filterMap, List.filterMap_map]
  apply List.filterMap_congr
  intro n _
  have := @firstVal_padFile w n
  simpa [Function.comp, Option.map_map] using this

theorem padWidth_map_padFile (w : Nat) (names : List Name) :
    padWidth (names.map (padFile w)) = padWidth names := by
  unfold padWidth maxExtracted
  rw [extract_vals_map_padFile]

theorem extract_ne_nil_map_padFile {w : Nat} {names : List Name}
    (h : ¬ extractPairs names = []) : ¬ extractPairs (names.map (padFile w)) = [] := by
  intro h2
  apply h
  have hv := extract_vals_map_padFile w names
  rw [h2] at hv
  simp only [List.map_nil] at hv
  exact List.map_eq_nil_iff.mp hv.symm

theorem padFile_padFile (w : Nat) (n : Name) : padFile w (padFile w n) = padFile w n := by
  cases h : findMarker n with
  | none =>
    have h1 : padFile w n = n := by
      unfold padFile
      rw [if_neg (by simp [h])]
    rw [h1, h1]
  | some pr =>
    obtain ⟨pre, m, rest⟩ := pr
    have h1 : padFile w n = subMarkers w n := by
      unfold padFile
      rw [if_pos (by simp [h])]
    have h2 : (findMarker (subMarkers w n)).isSome = true := by
      rw [@findMarker_subMarkers w _ _ _ _ h]
      rfl
    have h3 : padFile w (subMarkers w n) = subMarkers w (subMarkers w n) := by
      unfold padFile
      rw [if_pos h2]
    rw [h1, h3, subMarkers_idem]

theorem le_foldl_max :
    ∀ (l : List Nat) (a x : Nat), x ∈ l ∨ x ≤ a → x ≤ l.foldl Nat.max a := by
  intro l
  induction l with
  | nil =>
    intro a x h
    rcases h with h | h
    · simp at h
    · exact h
  | cons b l ih =>
    intro a x h
    show x ≤ List.foldl Nat.max (Nat.max a b) l
    apply ih
    rcases h with h | h
    · rcases List.mem_cons.mp h with h | h
      · right; subst h; exact Nat.le_max_right a x
      · left; exact h
    · right; exact Nat.le_trans h (Nat.le_max_left a b)

theorem mem_extract_le_max {names : List Name} {n pre : Name} {m : Marker} {rest : Name}
    (hn : n ∈ names) (h : findMarker n = some (pre, m, rest)) :
    digitsToNat m.digits ≤ maxExtracted names := by
  have hv : digitsToNat m.digits ∈ (extractPairs names).map (fun pr => pr.2) := by
    unfold extractPairs
    rw [List.map_filterMap]
    refine List.mem_filterMap.mpr ⟨n, hn, ?_⟩
    rw [h]
    rfl
  exact le_foldl_max _ 0 _ (Or.inl hv)

theorem extract_nil_marker_none {names : List Name} (hx : extractPairs names = [])
    {n : Name} (hn : n ∈ names) : findMarker n = none := by
  have := List.filterMap_eq_nil_iff.mp hx n hn
  cases h : findMarker n with
  | none => rfl
  | some pr =>
    rw [h] at this
    simp at this

theorem subMarkers_markersPadded (w : Nat) :
    ∀ (n : Nat) (cs : Name), cs.length ≤ n → MarkersPadded w cs (subMarkers w cs) := by
  intro n
  induction n using Nat.strong_induction_on with
  | _ n IH =>
    intro cs hle
    cases h : findMarker cs with
    | none =>
      rw [subMarkers_of_none h]
      exact MarkersPadded.clean cs h
    | some pr =>
      obtain ⟨pre, m, rest⟩ := pr
      have hdecomp := (findMarker_decomp _ _ _ _ h).1
      have hrl := findMarker_rest_length h
      have hrec : MarkersPadded w rest (subMarkers w rest) :=
        IH rest.length (by omega) rest (le_refl _)
      have hseg := @MarkersPadded.seg w pre m rest (subMarkers w rest)
        (hdecomp ▸ h) hrec
      rw [subMarkers_eq_of_findMarker h, hdecomp]
      have hassoc : pre ++ renderMarker w m ++ subMarkers w rest =
          pre ++ ((m.label ++ ' ' :: zfill w (natDigits (digitsToNat m.digits))) ++
            subMarkers w rest) := by
        simp [renderMarker]
      rw [← hdecomp]
      rw [hdecomp, hassoc]
      exact hseg

theorem padFile_markersPadded (w : Nat) (n : Name) : MarkersPadded w n (padFile w n) := by
  unfold padFile
  cases h : findMarker n with
  | none =>
    rw [if_neg (by simp [h])]
    exact MarkersPadded.clean n h
  | some pr =>
    rw [if_pos (by simp [h])]
    exact subMarkers_markersPadded w n.length n (le_refl _)

/-! ## Claim theorems for the padding stage (4.1) -/

/-- C8: if no filename in the directory matches the episode-marker pattern,
`pad_episode_numbers` returns immediately: the listing is unchanged and no
error is raised (the function is total). -/
theorem c8_pad_noop_without_markers (names : List Name)
    (h : ∀ n ∈ names, findMarker n = none) : pad_episode_numbers names = names := by
  have hx : extractPairs names = [] := by
    apply List.filterMap_eq_nil_iff.mpr
    intro n hn
    rw [h n hn]
    rfl
  unfold pad_episode_numbers
  rw [if_pos hx]

theorem c8_witness :
    (∀ n ∈ [("track01.mp3".toList : Name), ("readme.txt".toList : Name)], findMarker n = none) ∧
    pad_episode_numbers [("track01.mp3".toList : Name), ("readme.txt".toList : Name)] =
      [("track01.mp3".toList : Name), ("readme.txt".toList : Name)] :=
  ⟨by decide, c8_pad_noop_without_markers _ (by decide)⟩

/-- C6: the padding stage is idempotent — running `pad_episode_numbers`
twice on any directory listing produces the same listing as running it
once. -/
theorem c6_pad_idempotent (names : List Name) :
    pad_episode_numbers (pad_episode_numbers names) = pad_episode_numbers names := by
  by_cases hx : extractPairs names = []
  · unfold pad_episode_numbers
    rw [if_pos hx, if_pos hx]
  · have hmap := pad_eq_map hx
    have hx2 : ¬ extractPairs (pad_episode_numbers names) = [] := by
      rw [hmap]
      exact extract_ne_nil_map_padFile hx
    have hw : padWidth (pad_episode_numbers names) = padWidth names := by
      rw [hmap]
      exact padWidth_map_padFile _ _
    rw [pad_eq_map hx2, hw, hmap, List.map_map]
    apply List.map_congr_left
    intro n _
    exact padFile_padFile _ n

/-- C4 (counterexample): with the single file `Ep.1 Ep.23.mp3` the numbers
extracted per file come from the FIRST marker only (here 1), so the stage
pads to width 1 and the output `Ep. 1 Ep. 23.mp3` carries markers of widths
1 and 2 — not every marker is zero-padded to
`len(str(largest marker number across matched files))` = `len(str(23))` = 2. -/
theorem c4_counterexample :
    pad_episode_numbers [("Ep.1 Ep.23.mp3".toList : Name)] = [("Ep. 1 Ep. 23.mp3".toList : Name)] ∧
    (allMarkers ("Ep. 1 Ep. 23.mp3".toList)).map (fun m => m.digits.length) = [1, 2] ∧
    (natDigits 23).length = 2 := by
  decide

/-- C4 (amended): when some file matches, every matched file's FIRST marker
is rewritten in place preserving its label and numeric value, with its
numeric part zero-padded to exactly the uniform width
`len(str(max))`, where `max` is the largest FIRST-marker number across the
matched files (`padWidth`); markers after the first get the same `zfill`
applied, so those with more digits than the width keep their length. -/
theorem c4_first_marker_uniform_width (names : List Name)
    (hx : ¬ extractPairs names = []) :
    List.Forall₂ (FirstMarkerPadded (padWidth names)) names (pad_episode_numbers names) := by
  rw [pad_eq_map hx, List.forall₂_map_right_iff, List.forall₂_same]
  intro n hn pre m rest h
  have hfile : padFile (padWidth names) n = subMarkers (padWidth names) n := by
    unfold padFile
    rw [if_pos (by simp [h])]
  rw [hfile]
  refine ⟨zfill (padWidth names) (natDigits (digitsToNat m.digits)),
    subMarkers (padWidth names) rest, findMarker_subMarkers h, ?_, ?_⟩
  · apply zfill_length_of_le
    exact natDigits_length_mono _ _ (mem_extract_le_max hn h)
  · rw [digitsToNat_zfill, digitsToNat_natDigits]

theorem c4_witness :
    ¬ extractPairs
      [("Show Ep.1.mp3".toList : Name), ("Show Ep.23.mp3".toList : Name),
       ("Show Ep.7.mp3".toList : Name)] = [] ∧
    List.Forall₂
      (FirstMarkerPadded (padWidth
        [("Show Ep.1.mp3".toList : Name), ("Show Ep.23.mp3".toList : Name),
         ("Show Ep.7.mp3".toList : Name)]))
      [("Show Ep.1.mp3".toList : Name), ("Show Ep.23.mp3".toList : Name),
       ("Show Ep.7.mp3".toList : Name)]
      (pad_episode_numbers
        [("Show Ep.1.mp3".toList : Name), ("Show Ep.23.mp3".toList : Name),
         ("Show Ep.7.mp3".toList : Name)]) :=
  ⟨by decide, c4_first_marker_uniform_width _ (by decide)⟩

/-- C5 (counterexample): on `Ep.1.mp3` the marker `Ep.1` has no spacing
between label and number, yet the stage rewrites it to `Ep. 1` with one
space: the original spacing is NOT preserved. -/
theorem c5_counterexample :
    pad_episode_numbers [("Ep.1.mp3".toList : Name)] = [("Ep. 1.mp3".toList : Name)] ∧
    (findMarker ("Ep.1.mp3".toList)).map (fun pr => pr.2.1.sp) = some [] ∧
    (findMarker ("Ep. 1.mp3".toList)).map (fun pr => pr.2.1.sp) = some [' '] := by
  decide

/-- C5 (amended): for every file the padding stage relates input and output
name by `MarkersPadded`: each marker occurrence is replaced by its original
label (text and casing preserved), exactly ONE space (the original spacing
between label and number is normalized, not preserved), and the numeric
part `str(int(digits)).zfill(width)`; every character outside the marker
occurrences is unchanged. -/
theorem c5_marker_rewrite (names : List Name) :
    List.Forall₂ (MarkersPadded (padWidth names)) names (pad_episode_numbers names) := by
  by_cases hx : extractPairs names = []
  · unfold pad_episode_numbers
    rw [if_pos hx, List.forall₂_same]
    intro n hn
    exact MarkersPadded.clean n (extract_nil_marker_none hx hn)
  · rw [pad_eq_map hx, List.forall₂_map_right_iff, List.forall₂_same]
    intro n _
    exact padFile_markersPadded _ n

/-! ## The gap detector: characterizing `files_by_date` -/

theorem optAppend_nil : ∀ (x : Option (List Name)), optAppend x [] = x
  | none => rfl
  | some _ => by simp [optAppend]

theorem lookupGroup_insertGroup (d d2 : Name) (n : Name) :
    ∀ acc, lookupGroup d (insertGroup d2 n acc) =
      if d2 = d then
        (match lookupGroup d acc with
         | some fs => some (fs ++ [n])
         | none => some [n])
      else lookupGroup d acc := by
  intro acc
  induction acc with
  | nil =>
    by_cases h : d2 = d <;> simp [insertGroup, lookupGroup, h]
  | cons pr rest ih =>
    obtain ⟨d3, fs3⟩ := pr
    by_cases h32 : d3 = d2
    · subst h32
      by_cases h3d : d3 = d
      · subst h3d
        simp [insertGroup, lookupGroup]
      · simp [insertGroup, lookupGroup, h3d]
    · by_cases h3d : d3 = d
      · subst h3d
        by_cases h2d : d2 = d3
        · exact absurd h2d.symm h32
        · simp [insertGroup, lookupGroup, h32, h2d]
      · simp [insertGroup, lookupGroup, h32, h3d, ih]

theorem files_by_date_eq_foldl (names : List Name) :
    files_by_date names = names.foldl groupStep [] := rfl

theorem lookupGroup_foldl (d : Name) :
    ∀ (names : List Name) (acc : List (Name × List Name)),
      lookupGroup d (names.foldl groupStep acc) =
        optAppend (lookupGroup d acc) (names.filter (fun n => dateSearch n == some d)) := by
  intro names
  induction names with
  | nil =>
    intro acc
    simp [optAppend_nil]
  | cons n ns ih =>
    intro acc
    rw [List.foldl_cons, ih]
    cases hdn : dateSearch n with
    | none =>
      have hstep : groupStep acc n = acc := by simp [groupStep, hdn]
      have hfil : (n :: ns).filter (fun x => dateSearch x == some d) =
          ns.filter (fun x => dateSearch x == some d) := by
        rw [List.filter_cons]
        rw [if_neg (by simp [hdn])]
      rw [hstep, hfil]
    | some d2 =>
      have hstep : groupStep acc n = insertGroup d2 n acc := by simp [groupStep, hdn]
      rw [hstep, lookupGroup_insertGroup]
      by_cases h2d : d2 = d
      · subst h2d
        rw [if_pos rfl]
        have hfil : (n :: ns).filter (fun x => dateSearch x == some d2) =
            n :: ns.filter (fun x => dateSearch x == some d2) := by
          rw [List.filter_cons]
          rw [if_pos (by simp [hdn])]
        rw [hfil]
        cases hacc : lookupGroup d2 acc with
        | none =>
          simp only []
          cases hfil2 : ns.filter (fun x => dateSearch x == some d2) with
          | nil => simp [optAppend]
          | cons a l => simp [optAppend]
        | some fs =>
          simp only []
          cases hfil2 : ns.filter (fun x => dateSearch x == some d2) with
          | nil => simp [optAppend]
          | cons a l => simp [optAppend]
      · rw [if_neg h2d]
        have hfil : (n :: ns).filter (fun x => dateSearch x == some d) =
            ns.filter (fun x => dateSearch x == some d) := by
          rw [List.filter_cons]
          rw [if_neg (by simp [hdn, h2d])]
        rw [hfil]

theorem lookupGroup_files_by_date (names : List Name) (d : Name) :
    lookupGroup d (files_by_date names) =
      optAppend none (names.filter (fun n => dateSearch n == some d)) := by
  rw [files_by_date_eq_foldl, lookupGroup_foldl]
  rfl

theorem groupKeys_insertGroup (d2 : Name) (n : Name) :
    ∀ acc, groupKeys (insertGroup d2 n acc) = groupKeys acc ∨
      groupKeys (insertGroup d2 n acc) = groupKeys acc ++ [d2] := by
  intro acc
  induction acc with
  | nil => right; rfl
  | cons pr rest ih =>
    obtain ⟨d3, fs3⟩ := pr
    by_cases h32 : d3 = d2
    · left; simp [insertGroup, h32, groupKeys]
    · rcases ih with ih | ih
      · left; simp [insertGroup, h32, groupKeys] at ih ⊢; exact ih
      · right; simp [insertGroup, h32, groupKeys] at ih ⊢; exact ih

theorem mem_groupKeys_insertGroup {d d2 : Name} {n : Name} {acc : List (Name × List Name)}
    (h : d ∈ groupKeys (insertGroup d2 n acc)) : d ∈ groupKeys acc ∨ d = d2 := by
  rcases groupKeys_insertGroup d2 n acc with heq | heq
  · rw [heq] at h; left; exact h
  · rw [heq] at h
    rcases List.mem_append.mp h with h | h
    · left; exact h
    · right; simpa using h

theorem lookupGroup_none_of_not_mem {d : Name} :
    ∀ {acc : List (Name × List Name)}, d ∉ groupKeys acc → lookupGroup d acc = none := by
  intro acc
  induction acc with
  | nil => intro _; rfl
  | cons pr rest ih =>
    obtain ⟨d3, fs3⟩ := pr
    intro h
    have h3 : d3 ≠ d := by
      intro he
      exact h (by simp [groupKeys, he])
    unfold lookupGroup
    rw [if_neg h3]
    exact ih (fun hm => h (by simp [groupKeys] at hm ⊢; right; exact hm))

theorem keys_nodup_insertGroup {d2 : Name} {n : Name} :
    ∀ {acc : List (Name × List Name)}, (groupKeys acc).Nodup →
      (groupKeys (insertGroup d2 n acc)).Nodup := by
  intro acc
  induction acc with
  | nil => intro _; simp [insertGroup, groupKeys]
  | cons pr rest ih =>
    obtain ⟨d3, fs3⟩ := pr
    intro h
    simp only [groupKeys, List.map_cons, List.nodup_cons] at h
    obtain ⟨h3, hrest⟩ := h
    by_cases h32 : d3 = d2
    · simp only [insertGroup, if_pos h32, groupKeys, List.map_cons, List.nodup_cons]
      exact ⟨h3, hrest⟩
    · simp only [insertGroup, if_neg h32, groupKeys, List.map_cons, List.nodup_cons]
      constructor
      · intro hmem
        rcases mem_groupKeys_insertGroup hmem with hm | hm
        · exact h3 hm
        · exact h32 hm
      · exact ih hrest

theorem keys_nodup_files_by_date (names : List Name) :
    (groupKeys (files_by_date names)).Nodup := by
  rw [files_by_date_eq_foldl]
  have : ∀ (ns : List Name) (acc : List (Name × List Name)), (groupKeys acc).Nodup →
      (groupKeys (ns.foldl groupStep acc)).Nodup := by
    intro ns
    induction ns with
    | nil => intro acc h; exact h
    | cons n ns2 ih =>
      intro acc h
      rw [List.foldl_cons]
      apply ih
      unfold groupStep
      cases hdn : dateSearch n with
      | none => exact h
      | some d2 => exact keys_nodup_insertGroup h
  exact this names [] (by simp [groupKeys])

theorem mem_of_lookupGroup {d : Name} {fs : List Name} :
    ∀ {acc : List (Name × List Name)}, lookupGroup d acc = some fs → (d, fs) ∈ acc := by
  intro acc
  induction acc with
  | nil => intro h; simp [lookupGroup] at h
  | cons pr rest ih =>
    obtain ⟨d3, fs3⟩ := pr
    intro h
    unfold lookupGroup at h
    by_cases h3 : d3 = d
    · rw [if_pos h3] at h
      simp only [Option.some.injEq] at h
      subst h3; subst h
      simp
    · rw [if_neg h3] at h
      exact List.mem_cons.mpr (Or.inr (ih h))

theorem lookupGroup_of_mem {d : Name} {fs : List Name} :
    ∀ {acc : List (Name × List Name)}, (groupKeys acc).Nodup → (d, fs) ∈ acc →
      lookupGroup d acc = some fs := by
  intro acc
  induction acc with
  | nil => intro _ h; simp at h
  | cons pr rest ih =>
    obtain ⟨d3, fs3⟩ := pr
    intro hnd h
    simp only [groupKeys, List.map_cons, List.nodup_cons] at hnd
    obtain ⟨h3, hrest⟩ := hnd
    rcases List.mem_cons.mp h with h | h
    · simp only [Prod.mk.injEq] at h
      obtain ⟨hd, hfs⟩ := h
      subst hd; subst hfs
      unfold lookupGroup
      rw [if_pos rfl]
    · have hd3 : d3 ≠ d := by
        intro he
        subst he
        exact h3 (by simpa [groupKeys] using List.mem_map_of_mem Prod.fst h)
      unfold lookupGroup
      rw [if_neg hd3]
      exact ih hrest h

/-! ## Claim theorems for the gap detector (4.2) -/

/-- C3 (counterexample): a filename with two embedded dates. The detector
groups it only under its FIRST date match `2021-01-01`; although the name
contains the date `2021-01-02` (at word boundaries) and has no episode
marker, the result has no `2021-01-02` group, contradicting the claim that
the mapping contains every date string some markerless filename contains. -/
theorem c3_counterexample :
    find_files_without_episode_numbers [("X 2021-01-01 2021-01-02.mp3".toList : Name)] =
      [(("2021-01-01".toList : Name), [("X 2021-01-01 2021-01-02.mp3".toList : Name)])] ∧
    containsSeq ("2021-01-02".toList) ("X 2021-01-01 2021-01-02.mp3".toList) = true ∧
    dateShape ("2021-01-02.mp3".toList) = true ∧
    findMarker ("X 2021-01-01 2021-01-02.mp3".toList) = none ∧
    ("2021-01-01".toList : Name) ≠ ("2021-01-02".toList : Name) := by
  decide

/-- C3 (amended): the detector's result contains exactly the pairs
`(d, fs)` where `fs` is the nonempty list, in traversal order, of the files
whose FIRST date match is `d` and which carry no episode marker. In
particular: files without a date are excluded, a date appears iff some
markerless file has it as its first date match, and groups whose files all
carry markers are dropped. -/
theorem c3_gap_groups_by_first_date (names : List Name) (d : Name) (fs : List Name) :
    (d, fs) ∈ find_files_without_episode_numbers names ↔
      (fs = names.filter (fun n => !(findMarker n).isSome && (dateSearch n == some d)) ∧
        fs ≠ []) := by
  unfold find_files_without_episode_numbers
  constructor
  · intro h
    obtain ⟨pr0, hmem, heq⟩ := List.mem_filterMap.mp h
    obtain ⟨d0, fs0⟩ := pr0
    simp only [] at heq
    by_cases hnil : fs0.filter (fun f => !(findMarker f).isSome) = []
    · rw [if_pos hnil] at heq
      exact absurd heq (by simp)
    · rw [if_neg hnil] at heq
      simp only [Option.some.injEq, Prod.mk.injEq] at heq
      obtain ⟨hd0, hfs⟩ := heq
      rw [hd0] at hmem
      have hlk : lookupGroup d (files_by_date names) = some fs0 :=
        lookupGroup_of_mem (keys_nodup_files_by_date names) hmem
      rw [lookupGroup_files_by_date] at hlk
      cases hfd : names.filter (fun n => dateSearch n == some d) with
      | nil =>
        rw [hfd] at hlk
        simp [optAppend] at hlk
      | cons a l =>
        rw [hfd] at hlk
        simp only [optAppend, Option.some.injEq] at hlk
        constructor
        · rw [← hfs, ← hlk, ← hfd, List.filter_filter]
        · rw [← hfs]
          exact hnil
  · intro hpair
    obtain ⟨hfs, hne⟩ := hpair
    have hfd_ne : names.filter (fun n => dateSearch n == some d) ≠ [] := by
      intro h0
      apply hne
      rw [hfs, ← List.filter_filter, h0, List.filter_nil]
    have hlk : lookupGroup d (files_by_date names) =
        some (names.filter (fun n => dateSearch n == some d)) := by
      rw [lookupGroup_files_by_date]
      cases hfd : names.filter (fun n => dateSearch n == some d) with
      | nil => exact absurd hfd hfd_ne
      | cons a l => simp [optAppend]
    have hmem := mem_of_lookupGroup hlk
    apply List.mem_filterMap.mpr
    refine ⟨(d, names.filter (fun n => dateSearch n == some d)), hmem, ?_⟩
    have hms : (names.filter (fun n => dateSearch n == some d)).filter
        (fun f => !(findMarker f).isSome) = fs := by
      rw [List.filter_filter, hfs]
    simp only []
    rw [hms, if_neg hne]

theorem c3_witness :
    ((("2021-01-01".toList : Name), [("Show 2021-01-01 raw.mp3".toList : Name)]) ∈
      find_files_without_episode_numbers
        [("Show 2021-01-01 Ep. 1.mp3".toList : Name), ("Show 2021-01-01 raw.mp3".toList : Name),
         ("undated.mp3".toList : Name)]) :=
  (c3_gap_groups_by_first_date _ _ _).mpr ⟨by decide, by decide⟩

/-! ## The RSS-backed assigner: loop/first-match correspondence -/

theorem findIdx?_shift (p : Name → Bool) :
    ∀ (ts : List Name) (k : Nat),
      List.findIdx? p ts k = (List.findIdx? p ts).map (fun i => i + k) := by
  intro ts
  induction ts with
  | nil => intro k; simp [List.findIdx?_nil]
  | cons t ts2 ih =>
    intro k
    rw [List.findIdx?_cons, List.findIdx?_cons]
    by_cases hc : p t = true
    · rw [if_pos hc, if_pos hc]
      simp
    · rw [if_neg hc, if_neg hc]
      rw [ih (k + 1), ih 1, Option.map_map]
      congr 1
      funext i
      simp only [Function.comp_apply]
      omega

theorem assignFileGo_eq_renameHit (normalize : Name → Name) (titles : List Name)
    (date file : Name) :
    ∀ (ts : List Name) (k j : Nat),
      List.findIdx? (fun t => containsSeq (normalize t) (normalize file)) ts k = some j →
      assignFileGo normalize titles date file ts k = renameHit titles date file j := by
  intro ts
  induction ts with
  | nil =>
    intro k j h
    rw [List.findIdx?_nil] at h
    simp at h
  | cons t ts2 ih =>
    intro k j h
    rw [List.findIdx?_cons] at h
    unfold assignFileGo
    by_cases hc : containsSeq (normalize t) (normalize file) = true
    · rw [if_pos hc] at h
      rw [if_pos hc]
      simp only [Option.some.injEq] at h
      rw [h]
    · rw [if_neg hc] at h
      rw [if_neg hc]
      exact ih (k + 1) j h

theorem assignFileGo_unchanged (normalize : Name → Name) (titles : List Name)
    (date file : Name) :
    ∀ (ts : List Name), (∀ t ∈ ts, containsSeq (normalize t) (normalize file) = false) →
      ∀ (k : Nat), assignFileGo normalize titles date file ts k = .unchanged := by
  intro ts
  induction ts with
  | nil => intro _ k; rfl
  | cons t ts2 ih =>
    intro h k
    unfold assignFileGo
    rw [if_neg (by simp [h t (by simp)])]
    exact ih (fun t2 ht2 => h t2 (by simp [ht2])) (k + 1)

theorem splitFuel_no_sep {sep : Name} :
    ∀ (f : Nat) (cs : Name), cs.length ≤ f → containsSeq sep cs = false →
      splitFuel sep f cs = [cs] := by
  intro f
  induction f with
  | zero =>
    intro cs hle _
    have : cs = [] := by
      cases cs with
      | nil => rfl
      | cons a l => simp at hle
    subst this
    rfl
  | succ f2 ih =>
    intro cs hle h
    cases cs with
    | nil => rfl
    | cons c cs2 =>
      unfold containsSeq at h
      rw [Bool.or_eq_false_iff] at h
      obtain ⟨hpre, hrest⟩ := h
      unfold splitFuel
      simp only []
      rw [if_neg (by simp [hpre])]
      rw [ih cs2 (by simp at hle; omega) hrest]
      rfl

theorem splitOnSep_no_sep {sep cs : Name} (h : containsSeq sep cs = false) :
    splitOnSep sep cs = [cs] :=
  splitFuel_no_sep cs.length cs (le_refl _) h

/-! ## Claim theorems for the RSS-backed assigner (4.3) -/

/-- C1: for a file of a date group, if the FIRST title of the chronological
sequence whose normalized form is contained in the normalized filename sits
at 1-based position `k` (`firstTitleHit`), and the date-stripped name splits
on `" - "` into at least two parts, then the stage renames the file using
the template `{prefix} - {date} Ep. {episode} - {suffix}` with the episode
ordinal `k` zero-padded to width `len(str(len(title_sequence)))`. -/
theorem c1_rss_first_match_ordinal (normalize : Name → Name) (titles : List Name)
    (date file : Name) (k : Nat) (p0 p1 : Name) (ps : List Name)
    (h1 : firstTitleHit normalize titles file = some k)
    (h2 : splitOnSep sepDash (pyStrip (removeDateOcc date file)) = p0 :: p1 :: ps) :
    assignFile normalize titles date file =
      .renamed (renderTemplate p0 date
        (zfill (natDigits titles.length).length (natDigits k)) p1) := by
  unfold firstTitleHit at h1
  cases hidx : titles.findIdx? (fun t => containsSeq (normalize t) (normalize file)) with
  | none => rw [hidx] at h1; simp at h1
  | some j =>
    rw [hidx] at h1
    simp only [Option.map_some', Option.some.injEq] at h1
    have hsh : List.findIdx? (fun t => containsSeq (normalize t) (normalize file)) titles 1 =
        some (j + 1) := by
      rw [findIdx?_shift, hidx]
      rfl
    unfold assignFile
    rw [assignFileGo_eq_renameHit normalize titles date file titles 1 (j + 1) hsh, h1]
    simp only [renameHit]
    rw [h2]

/-- C7: a file whose normalized name contains no normalized title is left
untouched by stage 4.3 and raises nothing, and with an empty Episode Title
Sequence (as when the RSS provider fails to parse and returns `[]`) the
whole stage performs no renames and returns without error. -/
theorem c7_no_match_untouched :
    (∀ (normalize : Name → Name) (titles : List Name) (date file : Name),
      (∀ t ∈ titles, containsSeq (normalize t) (normalize file) = false) →
      assignFile normalize titles date file = .unchanged) ∧
    (∀ (normalize : Name → Name) (groups : List (Name × List Name)),
      assign_episode_numbers_from_rss normalize [] groups = .ok []) := by
  constructor
  · intro normalize titles date file h
    unfold assignFile
    exact assignFileGo_unchanged normalize titles date file titles h 1
  · intro normalize groups
    have hgf : ∀ (date : Name) (fs : List Name),
        assignGroupFiles normalize [] date fs = .ok [] := by
      intro date fs
      induction fs with
      | nil => rfl
      | cons f fs2 ih =>
        unfold assignGroupFiles
        rw [show assignFile normalize [] date f = .unchanged from rfl]
        exact ih
    unfold assign_episode_numbers_from_rss
    rw [List.reverse_nil]
    induction groups with
    | nil => rfl
    | cons g gs ih =>
      obtain ⟨date, fs⟩ := g
      unfold assignGroups
      rw [hgf date fs]
      simp only []
      rw [ih]
      rfl

/-- C9: if some title's normalized form is contained in the file's
normalized name, but the filename with the date occurrence removed (and
stripped) does not contain the separator `" - "`, the assigner hits the
`title_parts[1]` access on a one-element list and raises `IndexError`
instead of renaming or skipping the file. -/
theorem c9_missing_separator_index_error (normalize : Name → Name) (titles : List Name)
    (date file : Name)
    (h1 : ∃ t ∈ titles, containsSeq (normalize t) (normalize file) = true)
    (h2 : containsSeq sepDash (pyStrip (removeDateOcc date file)) = false) :
    assignFile normalize titles date file = .indexError := by
  have hsplit := splitOnSep_no_sep h2
  unfold assignFile
  have hall : ∀ (ts : List Name) (k : Nat),
      (∃ t ∈ ts, containsSeq (normalize t) (normalize file) = true) →
      assignFileGo normalize titles date file ts k = .indexError := by
    intro ts
    induction ts with
    | nil =>
      intro k h
      simp at h
    | cons t ts2 ih =>
      intro k h
      unfold assignFileGo
      by_cases hc : containsSeq (normalize t) (normalize file) = true
      · rw [if_pos hc]
        simp only [renameHit]
        rw [hsplit]
      · rw [if_neg hc]
        apply ih
        rcases h with ⟨t2, ht2, hcon⟩
        rcases List.mem_cons.mp ht2 with he | he
        · subst he
          exact absurd hcon hc
        · exact ⟨t2, he, hcon⟩
  exact hall titles 1 h1

theorem c1_witness :
    firstTitleHit normalize_string
      [("Intro".toList : Name), ("Episode One".toList : Name), ("Episode Two".toList : Name)]
      ("Show - 2021-01-01 Episode Two.mp3".toList) = some 3 ∧
    splitOnSep sepDash (pyStrip (removeDateOcc ("2021-01-01".toList)
      ("Show - 2021-01-01 Episode Two.mp3".toList))) =
      [("Show".toList : Name), ("Episode Two.mp3".toList : Name)] ∧
    assignFile normalize_string
      [("Intro".toList : Name), ("Episode One".toList : Name), ("Episode Two".toList : Name)]
      ("2021-01-01".toList) ("Show - 2021-01-01 Episode Two.mp3".toList) =
      .renamed ("Show - 2021-01-01 Ep. 3 - Episode Two.mp3".toList) :=
  ⟨by decide, by decide,
    (c1_rss_first_match_ordinal normalize_string
      [("Intro".toList : Name), ("Episode One".toList : Name), ("Episode Two".toList : Name)]
      ("2021-01-01".toList) ("Show - 2021-01-01 Episode Two.mp3".toList) 3
      ("Show".toList) ("Episode Two.mp3".toList) [] (by decide) (by decide)).trans
      (by decide)⟩

theorem c7_witness :
    (∀ t ∈ [("Alpha".toList : Name)],
      containsSeq (normalize_string t) (normalize_string ("Beta.mp3".toList)) = false) ∧
    assignFile normalize_string [("Alpha".toList : Name)] ("2021-01-01".toList)
      ("Beta.mp3".toList) = .unchanged ∧
    assign_episode_numbers_from_rss normalize_string []
      [(("2021-01-01".toList : Name), [("Beta.mp3".toList : Name)])] = .ok [] :=
  ⟨by decide,
    c7_no_match_untouched.1 normalize_string [("Alpha".toList : Name)]
      ("2021-01-01".toList) ("Beta.mp3".toList) (by decide),
    c7_no_match_untouched.2 normalize_string
      [(("2021-01-01".toList : Name), [("Beta.mp3".toList : Name)])]⟩

theorem c9_witness :
    (∃ t ∈ [("Alpha".toList : Name)],
      containsSeq (normalize_string t)
        (normalize_string ("Alpha 2021-01-01.mp3".toList)) = true) ∧
    containsSeq sepDash (pyStrip (removeDateOcc ("2021-01-01".toList)
      ("Alpha 2021-01-01.mp3".toList))) = false ∧
    assignFile normalize_string [("Alpha".toList : Name)] ("2021-01-01".toList)
      ("Alpha 2021-01-01.mp3".toList) = .indexError :=
  ⟨by decide, by decide,
    c9_missing_separator_index_error normalize_string [("Alpha".toList : Name)]
      ("2021-01-01".toList) ("Alpha 2021-01-01.mp3".toList) (by decide) (by decide)⟩

/-! ## Claim theorems for the orchestration pass (4.4) and the import surface -/

/-- C2 (evaluating the code at the failing input): `Show - 2021-01-01
Alpha.mp3` does not match the canonical numbered pattern, is an mp3, and a
matching file exists — the claim says it must be prompted. But because the
`files` generator is consumed by `any(...)` up to and including the first
matching element, the manual pass prompts for nothing when the unnumbered
file precedes the matching one; only files situated strictly after the
first matching file can ever be prompted, as the reversed order shows. -/
theorem c2_generator_skips_unnumbered_file :
    matchesNumbered ("Show - 2021-01-01 Alpha.mp3".toList) = false ∧
    matchesNumbered ("Show - 2021-01-01 1. Beta.mp3".toList) = true ∧
    isMp3 ("Show - 2021-01-01 Alpha.mp3".toList) = true ∧
    check_numbering_prompts
      [("Show - 2021-01-01 Alpha.mp3".toList : Name),
       ("Show - 2021-01-01 1. Beta.mp3".toList : Name)] = [] ∧
    check_numbering_prompts
      [("Show - 2021-01-01 1. Beta.mp3".toList : Name),
       ("Show - 2021-01-01 Alpha.mp3".toList : Name)] =
      [("Show - 2021-01-01 Alpha.mp3".toList : Name)] := by
  decide

/-- C10: `file_organizer.py` requests `normalize_string` from `.utils`, but
that name is neither imported nor defined at the top level of `utils.py`,
so the `from`-import — and with it any use of the module, including stage
4.3 — fails with `ImportError`. -/
theorem c10_normalize_string_unresolved_import :
    fileOrganizerImportFails = true ∧
    "normalize_string" ∈ fileOrganizerUtilsNames ∧
    "normalize_string" ∉ utilsModuleAttrs := by
  decide

end Bulldozer
